import Mathlib

/-!
Shallow embedding of `src/dzcongig/translator.py`: a translator from a small
configuration language (hexadecimal numbers, arrays, maps, constant
declarations and constant references) to TOML text.

Modelling conventions:
* Python strings are `List Char` / `String`;
* Python `int` values reachable in this program are `Nat` (every number
  originates from a hexadecimal literal, hence is nonnegative; Python ints
  are arbitrary precision, as is `Nat`);
* a Python `dict` is an insertion-ordered association list where assignment
  to an existing key overwrites the value in place and assignment to a fresh
  key appends at the end — exactly CPython's ordered-dict semantics;
* Python exceptions are `Except` / `Option`;
* the `while` loops of the lexer, parser and tokenizer are written with an
  explicit fuel argument; every call site passes fuel strictly larger than
  the number of iterations the loop can make (each iteration consumes at
  least one character or token), so the fuel never runs out and the
  functions compute exactly what the Python loops compute.
-/

namespace Dzcongig

/-- Python `str.isdigit` on one character.  Python's predicate is
Unicode-aware: it is true for the ASCII digits and for every character whose
Unicode `Numeric_Type` is `Digit` or `Decimal` — among them the Arabic-Indic
digits U+0660–U+0669.  The model covers the ASCII digits and the
Arabic-Indic family; Python accepts further Unicode digit characters that no
input considered below contains. -/
def pyIsDigit (c : Char) : Bool :=
  ('0' ≤ c && c ≤ '9') || (0x660 ≤ c.toNat && c.toNat ≤ 0x669)

/-- Python `ch.lower() in "abcdef"` on one character `ch`: true exactly for
`a`–`f` and `A`–`F`.  (No other Unicode character has a one-character
lowercase mapping inside `a`–`f`; e.g. the Kelvin sign lowers to `k`.) -/
def pyLowerInAbcdef (c : Char) : Bool :=
  ('a' ≤ c && c ≤ 'f') || ('A' ≤ c && c ≤ 'F')

/-- The hex-digit test of `Lexer.lex_hex`, line 97 of the source:
`ch.isdigit() or ch.lower() in "abcdef"`. -/
def isHexDigitPy (c : Char) : Bool :=
  pyIsDigit c || pyLowerInAbcdef c

/-- The ASCII hexadecimal digits `[0-9a-fA-F]` named by the specification. -/
def isAsciiHexDigit (c : Char) : Bool :=
  ('0' ≤ c && c ≤ '9') || ('a' ≤ c && c ≤ 'f') || ('A' ≤ c && c ≤ 'F')

/-- Python `str.isspace` on one character, restricted to the ASCII
whitespace characters (Python additionally accepts some Unicode space
characters that no input considered below contains). -/
def pyIsSpace (c : Char) : Bool :=
  c = ' ' || c = '\t' || c = '\n' || c = '\r' || c = '\x0b' || c = '\x0c'

/-- Python `str.isalpha` on one character, restricted to the ASCII letters
(Python additionally accepts Unicode letters that no input considered below
contains). -/
def pyIsAlpha (c : Char) : Bool :=
  ('a' ≤ c && c ≤ 'z') || ('A' ≤ c && c ≤ 'Z')

/-- Python `str.isalnum` on one character: alphabetic or digit, with the
same ASCII restriction as `pyIsAlpha` / `pyIsDigit`. -/
def pyIsAlnum (c : Char) : Bool :=
  pyIsAlpha c || pyIsDigit c

/-- The value Python's `int(s, 16)` gives to one digit character: the ASCII
decimal digits, `a`–`f`, `A`–`F`, and — by their decimal value — the
Arabic-Indic digits.  `none` means the character is rejected
(`ValueError`). -/
def hexCharVal (c : Char) : Option Nat :=
  if '0' ≤ c ∧ c ≤ '9' then some (c.toNat - '0'.toNat)
  else if 'a' ≤ c ∧ c ≤ 'f' then some (c.toNat - 'a'.toNat + 10)
  else if 'A' ≤ c ∧ c ≤ 'F' then some (c.toNat - 'A'.toNat + 10)
  else if 0x660 ≤ c.toNat ∧ c.toNat ≤ 0x669 then some (c.toNat - 0x660)
  else none

def pyIntBase16Aux : List Char → Nat → Option Nat
  | [], acc => some acc
  | c :: cs, acc =>
    match hexCharVal c with
    | some d => pyIntBase16Aux cs (16 * acc + d)
    | none => none

/-- Python `int(s, 16)` on a string of digit characters, as the parser calls
it on the digit string captured by the lexer (no sign, no `0x` marker, no
underscores — the lexer only hands over characters accepted by
`isHexDigitPy`).  `none` models `ValueError`; Python also raises on the
empty string. -/
def pyIntBase16 (s : List Char) : Option Nat :=
  if s = [] then none else pyIntBase16Aux s 0

/-- Little-endian decimal digits of `n`, written with fuel so that it
reduces in the kernel; any `fuel ≥ n` computes all digits
(`decDigitsAux_eq_digits`). -/
def decDigitsAux : Nat → Nat → List Nat
  | 0, _ => []
  | fuel + 1, n => if n = 0 then [] else n % 10 :: decDigitsAux fuel (n / 10)

/-- Python `str(n)` for a nonnegative `int`: the decimal digit string of
`n`, without sign, padding or separators. -/
def pyStrNat (n : Nat) : String :=
  if n = 0 then "0"
  else String.mk (((decDigitsAux n n).reverse).map Nat.digitChar)

/-- Reading a decimal digit string back into a number (used to state that
`pyStrNat` really is the exact decimal rendering). -/
def decodeDecimal (s : String) : Nat :=
  s.data.foldl (fun acc c => 10 * acc + (c.toNat - '0'.toNat)) 0

theorem decDigitsAux_eq_digits :
    ∀ fuel n, n ≤ fuel → decDigitsAux fuel n = Nat.digits 10 n := by
  intro fuel
  induction fuel with
  | zero =>
    intro n hn
    interval_cases n
    simp [decDigitsAux]
  | succ fuel ih =>
    intro n hn
    by_cases h0 : n = 0
    · simp [decDigitsAux, h0]
    · rw [decDigitsAux, if_neg h0,
        Nat.digits_def' (by norm_num : 1 < 10) (Nat.pos_of_ne_zero h0),
        ih (n / 10)]
      have := Nat.div_lt_self (Nat.pos_of_ne_zero h0) (by norm_num : 1 < 10)
      omega

theorem decDigits_lt_ten (n : Nat) : ∀ d ∈ decDigitsAux n n, d < 10 := by
  rw [decDigitsAux_eq_digits n n le_rfl]
  intro d hd
  exact Nat.digits_lt_base (by norm_num) hd

theorem digitChar_toNat {d : Nat} (hd : d < 10) :
    (Nat.digitChar d).toNat = d + 48 := by
  interval_cases d <;> decide

theorem digitChar_isDigit {d : Nat} (hd : d < 10) :
    '0' ≤ Nat.digitChar d ∧ Nat.digitChar d ≤ '9' := by
  interval_cases d <;> decide

/-- Every character of `pyStrNat n` is an ASCII decimal digit. -/
theorem pyStrNat_chars (n : Nat) :
    ∀ c ∈ (pyStrNat n).data, '0' ≤ c ∧ c ≤ '9' := by
  intro c hc
  unfold pyStrNat at hc
  by_cases h0 : n = 0
  · simp [h0] at hc
    simp [hc]
  · rw [if_neg h0] at hc
    have hc' : c ∈ ((decDigitsAux n n).reverse).map Nat.digitChar := hc
    rw [List.mem_map] at hc'
    obtain ⟨d, hd, rfl⟩ := hc'
    rw [List.mem_reverse] at hd
    exact digitChar_isDigit (decDigits_lt_ten n d hd)

theorem foldl_decode_reverse (L : List Nat) (h : ∀ d ∈ L, d < 10) (acc : Nat) :
    ((L.map Nat.digitChar).reverse).foldl
        (fun a c => 10 * a + (c.toNat - '0'.toNat)) acc
      = acc * 10 ^ L.length + Nat.ofDigits 10 L := by
  induction L generalizing acc with
  | nil => simp
  | cons d L ih =>
    simp only [List.map_cons, List.reverse_cons, List.foldl_append,
      List.foldl_cons, List.foldl_nil, Nat.ofDigits_cons, List.length_cons]
    have hd : d < 10 := h d (List.mem_cons_self d L)
    rw [ih (fun e he => h e (List.mem_cons_of_mem d he)), digitChar_toNat hd]
    have h48 : '0'.toNat = 48 := by decide
    rw [h48]
    ring_nf
    omega

/-- `pyStrNat` is the exact decimal rendering: reading the emitted digit
string back in base 10 recovers the number, with no truncation at any
width. -/
theorem decodeDecimal_pyStrNat (n : Nat) : decodeDecimal (pyStrNat n) = n := by
  unfold decodeDecimal pyStrNat
  by_cases h0 : n = 0
  · simp [h0]
  · rw [if_neg h0]
    have hstep :
        (String.mk (((decDigitsAux n n).reverse).map Nat.digitChar)).data
          = ((decDigitsAux n n).map Nat.digitChar).reverse := by
      show ((decDigitsAux n n).reverse).map Nat.digitChar
          = ((decDigitsAux n n).map Nat.digitChar).reverse
      exact List.map_reverse Nat.digitChar (decDigitsAux n n)
    rw [hstep, foldl_decode_reverse _ (decDigits_lt_ten n) 0,
      decDigitsAux_eq_digits n n le_rfl, Nat.ofDigits_digits]
    ring

/-! ## Tokens and the lexer -/

inductive TokenKind
  | ident | hex | lbrace | rbrace | semi | equal | lparen | rparen
  | comma | kwArray | kwVar | qmark | lbracket | rbracket | eof
  deriving DecidableEq, Repr

/-- A token: kind, raw lexeme (`""` stands for Python's `None` on the EOF
token), and the 1-based line/column where the token starts. -/
structure Token where
  kind : TokenKind
  value : String
  line : Nat
  col : Nat
  deriving DecidableEq, Repr

inductive LexErrKind
  /-- lex_ident_or_kw, line 74: a name was expected. -/
  | expectedName
  /-- lex_hex, line 92: a `0x...` literal was expected. -/
  | expectedHexStart
  /-- lex_hex, line 103: no hex digits followed the `0x` marker. -/
  | malformedHex
  /-- next_token, line 135: no rule matches the character. -/
  | unexpectedChar (ch : Char)
  /-- Unreachable; keeps the tokenize loop total on any fuel. -/
  | fuelExhausted
  deriving DecidableEq, Repr

/-- A lexical error with the 1-based position Python interpolates into the
message at the moment `raise` executes. -/
structure LexErr where
  kind : LexErrKind
  line : Nat
  col : Nat
  deriving DecidableEq, Repr

/-- The lexer state: the full input text, the cursor `i`, and the 1-based
line/column of the cursor. -/
structure LexState where
  text : List Char
  i : Nat
  line : Nat
  col : Nat
  deriving Repr

/-- `Lexer.peek(n)` (lines 43–47): the character at offset `n - 1` from the
cursor, `none` where Python returns the empty string. -/
def LexState.peek (st : LexState) (n : Nat) : Option Char :=
  st.text[st.i + n - 1]?

/-- One iteration of the loop in `Lexer.advance` (lines 50–59): consume the
character under the cursor, updating the line/column bookkeeping; at end of
text do nothing (Python returns early there, which iterates to the same
state). -/
def lexStep (st : LexState) : LexState :=
  if h : st.i < st.text.length then
    if st.text.get ⟨st.i, h⟩ = '\n'
    then { st with i := st.i + 1, line := st.line + 1, col := 1 }
    else { st with i := st.i + 1, col := st.col + 1 }
  else st

/-- `Lexer.advance(n)` (lines 49–59): `n` iterations of the loop body. -/
def lexAdvance : LexState → Nat → LexState
  | st, 0 => st
  | st, n + 1 => lexAdvance (lexStep st) n

/-- The shared shape of the scanning loops in `skip_ws`, `lex_ident_or_kw`
and `lex_hex`: consume characters while `p` holds, collecting them in
order.  Any fuel strictly larger than the number of matching characters
makes it compute exactly what the Python `while` loop computes
(`charLoop_spec`); call sites pass `remaining + 1`. -/
def charLoop (p : Char → Bool) : Nat → LexState → List Char → List Char × LexState
  | 0, st, acc => (acc, st)
  | fuel + 1, st, acc =>
    match st.peek 1 with
    | some ch =>
      if p ch then charLoop p fuel (lexAdvance st 1) (acc ++ [ch]) else (acc, st)
    | none => (acc, st)

/-- `Lexer.skip_ws` (lines 61–67). -/
def skipWs (st : LexState) : LexState :=
  (charLoop pyIsSpace (st.text.length - st.i + 1) st []).2

/-- `Lexer.lex_ident_or_kw` (lines 69–87): a maximal alphanumeric run
starting with an alphabetic character; the exact words `array` and `var`
become keyword tokens, every other run an identifier token. -/
def lexIdentOrKw (st : LexState) : Except LexErr (Token × LexState) :=
  match st.peek 1 with
  | some ch =>
    if pyIsAlpha ch then
      match charLoop pyIsAlnum (st.text.length - st.i + 1) st [] with
      | (s, st2) =>
        if String.mk s = "array" then .ok (⟨.kwArray, String.mk s, st.line, st.col⟩, st2)
        else if String.mk s = "var" then .ok (⟨.kwVar, String.mk s, st.line, st.col⟩, st2)
        else .ok (⟨.ident, String.mk s, st.line, st.col⟩, st2)
    else .error ⟨.expectedName, st.line, st.col⟩
  | none => .error ⟨.expectedName, st.line, st.col⟩

/-- `Lexer.lex_hex` (lines 89–104).  The `0x`/`0X` marker test
`self.peek(2).lower() != "x"` holds exactly for `x` and `X` (no other
character has `"x"` as its lowercase).  Note that the zero-digits error is
raised only after `advance(2)` has stepped over the marker, so the position
it reports is the cursor position at that moment, not the recorded start of
the literal. -/
def lexHex (st : LexState) : Except LexErr (Token × LexState) :=
  if st.peek 1 = some '0' ∧ (st.peek 2 = some 'x' ∨ st.peek 2 = some 'X') then
    match charLoop isHexDigitPy
        ((lexAdvance st 2).text.length - (lexAdvance st 2).i + 1)
        (lexAdvance st 2) [] with
    | (digits, st3) =>
      if digits = [] then .error ⟨.malformedHex, st3.line, st3.col⟩
      else .ok (⟨.hex, String.mk digits, st.line, st.col⟩, st3)
  else .error ⟨.expectedHexStart, st.line, st.col⟩

/-- The single-character token table of `Lexer.next_token`
(lines 112–123). -/
def singleCharKind (c : Char) : Option TokenKind :=
  if c = '{' then some .lbrace
  else if c = '}' then some .rbrace
  else if c = ';' then some .semi
  else if c = '=' then some .equal
  else if c = '(' then some .lparen
  else if c = ')' then some .rparen
  else if c = ',' then some .comma
  else if c = '?' then some .qmark
  else if c = '[' then some .lbracket
  else if c = ']' then some .rbracket
  else none

/-- The body of `Lexer.next_token` after the initial `skip_ws` call
(lines 108–135). -/
def nextTokenAt (st : LexState) : Except LexErr (Token × LexState) :=
  match st.peek 1 with
  | none => .ok (⟨.eof, "", st.line, st.col⟩, st)
  | some ch =>
    match singleCharKind ch with
    | some k => .ok (⟨k, String.singleton ch, st.line, st.col⟩, lexAdvance st 1)
    | none =>
      if ch = '0' ∧ (st.peek 2 = some 'x' ∨ st.peek 2 = some 'X') then
        lexHex st
      else if pyIsAlpha ch then
        lexIdentOrKw st
      else
        .error ⟨.unexpectedChar ch, st.line, st.col⟩

/-- `Lexer.next_token` (lines 106–135). -/
def nextToken (st0 : LexState) : Except LexErr (Token × LexState) :=
  nextTokenAt (skipWs st0)

/-- The loop of `Lexer.tokenize` (lines 137–144). -/
def tokenizeLoop : Nat → LexState → List Token → Except LexErr (List Token)
  | 0, st, _ => .error ⟨.fuelExhausted, st.line, st.col⟩
  | fuel + 1, st, acc =>
    match nextToken st with
    | .error e => .error e
    | .ok (tok, st') =>
      if tok.kind = .eof then .ok (acc ++ [tok])
      else tokenizeLoop fuel st' (acc ++ [tok])

/-- `Lexer.tokenize` on a source string.  `fuelExhausted` is unreachable:
every token before EOF consumes at least one character, so at most
`length + 1` iterations happen. -/
def tokenize (s : String) : Except LexErr (List Token) :=
  tokenizeLoop (s.data.length + 1) ⟨s.data, 0, 1, 1⟩ []

example : tokenize "0xfF" = .ok [⟨.hex, "fF", 1, 1⟩, ⟨.eof, "", 1, 5⟩] := rfl

example :
    tokenize "var a" = .ok [⟨.kwVar, "var", 1, 1⟩, ⟨.ident, "a", 1, 5⟩, ⟨.eof, "", 1, 6⟩] := rfl

example : tokenize "0xg" = .error ⟨.malformedHex, 1, 3⟩ := rfl

/-! ## Lexer lemmas -/

theorem takeWhile_len_le {α : Type} (p : α → Bool) :
    ∀ l : List α, (l.takeWhile p).length ≤ l.length := by
  intro l
  induction l with
  | nil => simp
  | cons c l ih =>
    rw [List.takeWhile_cons]
    by_cases h : p c = true
    · simp only [h, if_true, List.length_cons]
      omega
    · simp [h]

theorem takeWhile_all {α : Type} (p : α → Bool) :
    ∀ l : List α, (∀ a ∈ l, p a = true) → l.takeWhile p = l := by
  intro l
  induction l with
  | nil => intro _; rfl
  | cons c l ih =>
    intro h
    rw [List.takeWhile_cons, if_pos (h c (List.mem_cons_self c l)),
      ih (fun a ha => h a (List.mem_cons_of_mem c ha))]

theorem lexAdvance_one (st : LexState) : lexAdvance st 1 = lexStep st := rfl

theorem lexAdvance_add (m n : Nat) :
    ∀ st : LexState, lexAdvance st (m + n) = lexAdvance (lexAdvance st m) n := by
  induction m with
  | zero =>
    intro st
    rw [Nat.zero_add]
    rfl
  | succ m ih =>
    intro st
    have harith : m + 1 + n = (m + n) + 1 := by omega
    rw [harith]
    show lexAdvance (lexStep st) (m + n) = lexAdvance (lexAdvance (lexStep st) m) n
    exact ih (lexStep st)

theorem lexStep_text (st : LexState) : (lexStep st).text = st.text := by
  unfold lexStep
  by_cases h : st.i < st.text.length
  · rw [dif_pos h]
    split <;> rfl
  · rw [dif_neg h]

theorem lexAdvance_text : ∀ (n : Nat) (st : LexState),
    (lexAdvance st n).text = st.text := by
  intro n
  induction n with
  | zero => intro st; rfl
  | succ n ih =>
    intro st
    show (lexAdvance (lexStep st) n).text = st.text
    rw [ih, lexStep_text]

theorem lexStep_of_char {st : LexState} {c : Char}
    (h : st.text[st.i]? = some c) :
    lexStep st =
      if c = '\n'
      then { st with i := st.i + 1, line := st.line + 1, col := 1 }
      else { st with i := st.i + 1, col := st.col + 1 } := by
  obtain ⟨hlt, hget⟩ := List.getElem?_eq_some.mp h
  have hget' : st.text.get ⟨st.i, hlt⟩ = c := hget
  unfold lexStep
  rw [dif_pos hlt, hget']

theorem lexStep_of_char_ne {st : LexState} {c : Char}
    (h : st.text[st.i]? = some c) (hn : c ≠ '\n') :
    lexStep st = { st with i := st.i + 1, col := st.col + 1 } := by
  rw [lexStep_of_char h, if_neg hn]

theorem peek_one (st : LexState) : st.peek 1 = (st.text.drop st.i).head? := by
  show st.text[st.i]? = (st.text.drop st.i).head?
  rw [List.head?_drop]

/-- `advance(n)` over `n` present non-newline characters: the cursor moves
by `n`, the column by `n`, and the line is unchanged. -/
theorem lexAdvance_no_newline : ∀ (n : Nat) (st : LexState),
    (∀ j, j < n → ∃ d, st.text[st.i + j]? = some d ∧ d ≠ '\n') →
    lexAdvance st n = { st with i := st.i + n, col := st.col + n } := by
  intro n
  induction n with
  | zero =>
    intro st _
    show st = _
    cases st
    simp
  | succ n ih =>
    intro st h
    obtain ⟨d, hd, hdn⟩ := h 0 (Nat.succ_pos n)
    rw [Nat.add_zero] at hd
    show lexAdvance (lexStep st) n = _
    rw [lexStep_of_char_ne hd hdn]
    rw [ih _ (fun j hj => by
      obtain ⟨e, he, hen⟩ := h (j + 1) (by omega)
      refine ⟨e, ?_, hen⟩
      show st.text[st.i + 1 + j]? = some e
      rw [show st.i + 1 + j = st.i + (j + 1) by omega]
      exact he)]
    cases st
    simp
    omega

theorem charLoop_spec (p : Char → Bool) :
    ∀ (fuel : Nat) (st : LexState) (acc : List Char),
      ((st.text.drop st.i).takeWhile p).length < fuel →
      charLoop p fuel st acc =
        (acc ++ (st.text.drop st.i).takeWhile p,
          lexAdvance st ((st.text.drop st.i).takeWhile p).length) := by
  intro fuel
  induction fuel with
  | zero => intro st acc h; omega
  | succ fuel ih =>
    intro st acc h
    cases hrest : st.text.drop st.i with
    | nil =>
      have hpeek : st.peek 1 = none := by rw [peek_one, hrest]; rfl
      simp only [charLoop, hpeek, hrest, List.takeWhile_nil, List.append_nil,
        List.length_nil]
      rfl
    | cons c rest =>
      have hpeek : st.peek 1 = some c := by rw [peek_one, hrest]; rfl
      have hci : st.text[st.i]? = some c := hpeek
      by_cases hp : p c = true
      · have htext1 : (lexAdvance st 1).text = st.text := lexAdvance_text 1 st
        have hi1 : (lexAdvance st 1).i = st.i + 1 := by
          rw [lexAdvance_one, lexStep_of_char hci]
          by_cases hc : c = '\n' <;> simp [hc]
        have hdrop1 : (lexAdvance st 1).text.drop (lexAdvance st 1).i = rest := by
          rw [htext1, hi1]
          have h2 := List.drop_drop 1 st.i st.text
          rw [hrest] at h2
          simpa using h2.symm
        have hlen : (((lexAdvance st 1).text.drop (lexAdvance st 1).i).takeWhile p).length < fuel := by
          rw [hdrop1]
          rw [hrest, List.takeWhile_cons, if_pos hp] at h
          simpa using Nat.lt_of_succ_lt_succ h
        simp only [charLoop, hpeek]
        rw [if_pos hp, ih (lexAdvance st 1) (acc ++ [c]) hlen, hdrop1,
          List.takeWhile_cons, if_pos hp]
        simp only [Prod.mk.injEq]
        constructor
        · simp
        · rw [List.length_cons,
            show (rest.takeWhile p).length + 1 = 1 + (rest.takeWhile p).length by omega,
            lexAdvance_add]
      · simp only [charLoop, hpeek]
        rw [if_neg hp, List.takeWhile_cons, if_neg hp]
        simp only [List.append_nil, List.length_nil]
        rfl

theorem skipWs_spec (st : LexState) :
    skipWs st = lexAdvance st ((st.text.drop st.i).takeWhile pyIsSpace).length := by
  unfold skipWs
  rw [charLoop_spec pyIsSpace (st.text.length - st.i + 1) st []
    (by
      have h1 := takeWhile_len_le pyIsSpace (st.text.drop st.i)
      have h2 : (st.text.drop st.i).length = st.text.length - st.i :=
        List.length_drop st.i st.text
      omega)]

/-- If the character under the cursor is not whitespace (or the text is
over), `skip_ws` does nothing. -/
theorem skipWs_of_head (st : LexState)
    (h : ∀ c, st.peek 1 = some c → pyIsSpace c = false) : skipWs st = st := by
  rw [skipWs_spec]
  cases hh : st.text.drop st.i with
  | nil => rfl
  | cons c rest =>
    have hc : st.peek 1 = some c := by rw [peek_one, hh]; rfl
    rw [List.takeWhile_cons, if_neg (by simp [h c hc])]
    rfl

/-- Running `lex_hex` from a state whose next two characters are `0` and
`x`/`X`: the digit string is the maximal run of characters passing the
code's hex-digit test after the marker; with zero such characters the error
position is the cursor after `advance(2)`, namely column `col + 2` on the
same line. -/
theorem lexHex_run (st : LexState) (c : Char)
    (h0 : st.peek 1 = some '0') (hx : st.peek 2 = some c)
    (hc : c = 'x' ∨ c = 'X') :
    lexHex st =
      if (st.text.drop (st.i + 2)).takeWhile isHexDigitPy = [] then
        .error ⟨.malformedHex, st.line, st.col + 2⟩
      else
        .ok (⟨.hex, String.mk ((st.text.drop (st.i + 2)).takeWhile isHexDigitPy),
              st.line, st.col⟩,
          lexAdvance st (2 + ((st.text.drop (st.i + 2)).takeWhile isHexDigitPy).length)) := by
  have hcond : st.peek 1 = some '0' ∧ (st.peek 2 = some 'x' ∨ st.peek 2 = some 'X') := by
    refine ⟨h0, ?_⟩
    rcases hc with h | h
    · exact Or.inl (by rw [hx, h])
    · exact Or.inr (by rw [hx, h])
  have hci0 : st.text[st.i]? = some '0' := h0
  have hci1 : st.text[st.i + 1]? = some c := hx
  have hcn : c ≠ '\n' := by rcases hc with h | h <;> (rw [h]; decide)
  have h2 : lexAdvance st 2 = { st with i := st.i + 2, col := st.col + 2 } := by
    apply lexAdvance_no_newline 2 st
    intro j hj
    interval_cases j
    · exact ⟨'0', by simpa using hci0, by decide⟩
    · exact ⟨c, hci1, hcn⟩
  unfold lexHex
  rw [if_pos hcond, h2]
  rw [charLoop_spec isHexDigitPy _ _ []
    (by
      have h1 := takeWhile_len_le isHexDigitPy
        (({ st with i := st.i + 2, col := st.col + 2 } : LexState).text.drop
          ({ st with i := st.i + 2, col := st.col + 2 } : LexState).i)
      have hd := List.length_drop (st.i + 2) st.text
      simp only at h1 ⊢
      omega)]
  simp only [List.nil_append]
  rw [show lexAdvance st
        (2 + ((st.text.drop (st.i + 2)).takeWhile isHexDigitPy).length)
      = lexAdvance (lexAdvance st 2)
        ((st.text.drop (st.i + 2)).takeWhile isHexDigitPy).length
    from lexAdvance_add 2 _ st, h2]
  by_cases hnil : (st.text.drop (st.i + 2)).takeWhile isHexDigitPy = []
  · rw [if_pos hnil, if_pos hnil, hnil]
    rfl
  · rw [if_neg hnil, if_neg hnil]

/-- `next_token` dispatches to `lex_hex` exactly when the (whitespace
skipped) cursor sees `0` followed by `x`/`X`. -/
theorem nextTokenAt_hex (st : LexState) (c : Char)
    (h0 : st.peek 1 = some '0') (hx : st.peek 2 = some c)
    (hc : c = 'x' ∨ c = 'X') :
    nextTokenAt st = lexHex st := by
  unfold nextTokenAt
  rw [h0]
  have hsingle : singleCharKind '0' = none := rfl
  simp only [hsingle]
  rw [if_pos]
  refine ⟨by trivial, ?_⟩
  rcases hc with h | h
  · exact Or.inl (by rw [hx, h])
  · exact Or.inr (by rw [hx, h])

/-! ## AST and the parser -/

inductive Node
  /-- `NumberNode`: the integer parsed from a hexadecimal literal. -/
  | number (n : Nat)
  /-- `ArrayNode`. -/
  | array (items : List Node)
  /-- `MapNode`: an ordered list of `DictItemNode` key/value pairs. -/
  | map (items : List (String × Node))
  /-- `ConstRefNode`. -/
  | constRef (name : String)

/-- `ConstDeclNode`. -/
structure ConstDecl where
  name : String
  value : Node

/-- `ProgramNode`. -/
structure ProgramNode where
  consts : List ConstDecl
  root : Node

inductive ParseErrKind
  /-- `Parser.expect` (line 200): one specific token kind was expected. -/
  | expectedKind (kind : TokenKind)
  /-- `Parser.parse_value` (line 229): a value was expected. -/
  | expectedValue
  /-- `int(tok.value, 16)` raised `ValueError`.  In Python this escapes as
  an internal error (exit 3); unreachable for tokens the lexer produces. -/
  | intConvError
  /-- Reading past the end of the token list (`IndexError` in Python,
  exit 3); unreachable for token lists ending in an EOF token. -/
  | pastEnd
  /-- Unreachable; keeps the parsing loops total on any fuel. -/
  | fuelOut
  deriving DecidableEq, Repr

/-- A parse error carrying the expectation, the 1-based position of the
offending token and its actual kind, as interpolated into the message. -/
structure ParseErr where
  kind : ParseErrKind
  line : Nat
  col : Nat
  found : TokenKind
  deriving DecidableEq, Repr

/-- `Parser.expect` (lines 197–201) on the remaining token list. -/
def expect (kind : TokenKind) : List Token → Except ParseErr (Token × List Token)
  | [] => .error ⟨.pastEnd, 0, 0, .eof⟩
  | tok :: rest =>
    if tok.kind = kind then .ok (tok, rest)
    else .error ⟨.expectedKind kind, tok.line, tok.col, tok.kind⟩

/-- `Parser.parse_const_ref` (lines 255–260). -/
def parseConstRef (toks : List Token) : Except ParseErr (Node × List Token) := do
  let (_, t1) ← expect .qmark toks
  let (_, t2) ← expect .lbracket t1
  let (nameTok, t3) ← expect .ident t2
  let (_, t4) ← expect .rbracket t3
  .ok (.constRef nameTok.value, t4)

mutual

/-- `Parser.parse_value` (lines 218–229). -/
def parseValue : Nat → List Token → Except ParseErr (Node × List Token)
  | 0, _ => .error ⟨.fuelOut, 0, 0, .eof⟩
  | fuel + 1, toks =>
    match toks with
    | [] => .error ⟨.pastEnd, 0, 0, .eof⟩
    | t :: rest =>
      if t.kind = .hex then
        match pyIntBase16 t.value.data with
        | some n => .ok (.number n, rest)
        | none => .error ⟨.intConvError, t.line, t.col, t.kind⟩
      else if t.kind = .kwArray then parseArray fuel toks
      else if t.kind = .lbrace then parseDict fuel toks
      else if t.kind = .qmark then parseConstRef toks
      else .error ⟨.expectedValue, t.line, t.col, t.kind⟩

/-- `Parser.parse_array` (lines 231–241). -/
def parseArray : Nat → List Token → Except ParseErr (Node × List Token)
  | 0, _ => .error ⟨.fuelOut, 0, 0, .eof⟩
  | fuel + 1, toks => do
    let (_, t1) ← expect .kwArray toks
    let (_, t2) ← expect .lparen t1
    match t2 with
    | [] => .error ⟨.pastEnd, 0, 0, .eof⟩
    | t :: _ =>
      if t.kind ≠ .rparen then do
        let (v, t3) ← parseValue fuel t2
        let (items, t4) ← parseArrayRest fuel t3 [v]
        let (_, t5) ← expect .rparen t4
        .ok (.array items, t5)
      else do
        let (_, t5) ← expect .rparen t2
        .ok (.array [], t5)

/-- The `while COMMA` loop of `parse_array` (lines 237–239). -/
def parseArrayRest : Nat → List Token → List Node →
    Except ParseErr (List Node × List Token)
  | 0, _, _ => .error ⟨.fuelOut, 0, 0, .eof⟩
  | fuel + 1, toks, acc =>
    match toks with
    | [] => .error ⟨.pastEnd, 0, 0, .eof⟩
    | t :: rest =>
      if t.kind = .comma then do
        let (v, t2) ← parseValue fuel rest
        parseArrayRest fuel t2 (acc ++ [v])
      else .ok (acc, toks)

/-- `Parser.parse_dict` (lines 243–253). -/
def parseDict : Nat → List Token → Except ParseErr (Node × List Token)
  | 0, _ => .error ⟨.fuelOut, 0, 0, .eof⟩
  | fuel + 1, toks => do
    let (_, t1) ← expect .lbrace toks
    let (items, t2) ← parseDictItems fuel t1 []
    let (_, t3) ← expect .rbrace t2
    .ok (.map items, t3)

/-- The `while not RBRACE` loop of `parse_dict` (lines 246–251). -/
def parseDictItems : Nat → List Token → List (String × Node) →
    Except ParseErr (List (String × Node) × List Token)
  | 0, _, _ => .error ⟨.fuelOut, 0, 0, .eof⟩
  | fuel + 1, toks, acc =>
    match toks with
    | [] => .error ⟨.pastEnd, 0, 0, .eof⟩
    | t :: _ =>
      if t.kind ≠ .rbrace then do
        let (keyTok, t1) ← expect .ident toks
        let (_, t2) ← expect .equal t1
        let (v, t3) ← parseValue fuel t2
        let (_, t4) ← expect .semi t3
        parseDictItems fuel t4 (acc ++ [(keyTok.value, v)])
      else .ok (acc, toks)

end

/-- `Parser.parse_const_decl` (lines 211–216). -/
def parseConstDecl (fuel : Nat) (toks : List Token) :
    Except ParseErr (ConstDecl × List Token) := do
  let (_, t1) ← expect .kwVar toks
  let (identTok, t2) ← expect .ident t1
  let (_, t3) ← expect .equal t2
  let (v, t4) ← parseValue fuel t3
  .ok (⟨identTok.value, v⟩, t4)

/-- The `while KW_VAR` loop of `parse_program` (lines 205–206). -/
def parseConstDecls : Nat → List Token → List ConstDecl →
    Except ParseErr (List ConstDecl × List Token)
  | 0, _, _ => .error ⟨.fuelOut, 0, 0, .eof⟩
  | fuel + 1, toks, acc =>
    match toks with
    | [] => .error ⟨.pastEnd, 0, 0, .eof⟩
    | t :: _ =>
      if t.kind = .kwVar then do
        let (d, t1) ← parseConstDecl fuel toks
        parseConstDecls fuel t1 (acc ++ [d])
      else .ok (acc, toks)

/-- `Parser.parse_program` (lines 203–209). -/
def parseProgram (fuel : Nat) (toks : List Token) : Except ParseErr ProgramNode := do
  let (consts, t1) ← parseConstDecls fuel toks []
  let (root, t2) ← parseValue fuel t1
  let (_, _) ← expect .eof t2
  .ok ⟨consts, root⟩

/-- Run the parser on a token list.  The fuel `length + 1` never runs out:
every recursive descent step strictly consumes tokens. -/
def parseTokens (toks : List Token) : Except ParseErr ProgramNode :=
  parseProgram (toks.length + 1) toks

/-! ## Values and the evaluator -/

inductive Value
  /-- A Python `int` (always nonnegative here: numbers originate from hex
  literals only). -/
  | int (n : Nat)
  /-- A Python `list`. -/
  | list (items : List Value)
  /-- A Python `dict` as an insertion-ordered association list. -/
  | dict (items : List (String × Value))

/-- The evaluator's symbol table `self.consts`: a Python `dict`. -/
abbrev Env := List (String × Value)

/-- Python `k in d` / `d[k]` on the ordered-dict model. -/
def envLookup : List (String × Value) → String → Option Value
  | [], _ => none
  | (k2, v) :: rest, k => if k2 = k then some v else envLookup rest k

/-- Python `d[k] = v` on the ordered-dict model: overwrite in place if the
key exists (keeping its original position), otherwise append at the end —
CPython's dict-assignment semantics. -/
def pyDictAssign : List (String × Value) → String → Value → List (String × Value)
  | [], k, v => [(k, v)]
  | (k2, v2) :: rest, k, v =>
    if k2 = k then (k2, v) :: rest else (k2, v2) :: pyDictAssign rest k v

inductive EvalErr
  /-- `eval_program` (line 274): the constant is declared twice. -/
  | duplicateConst (name : String)
  /-- `eval_value` (line 291): the referenced constant is not in the table. -/
  | unknownConst (name : String)
  deriving DecidableEq, Repr

mutual

/-- `Evaluator.eval_value` (lines 279–293).  The final `raise` for an
unknown node type is unreachable: `Node` is a closed sum. -/
def evalValue (env : Env) : Node → Except EvalErr Value
  | .number n => .ok (.int n)
  | .array items =>
    match evalNodeList env items with
    | .ok vs => .ok (.list vs)
    | .error e => .error e
  | .map items =>
    match evalMapItems env items [] with
    | .ok m => .ok (.dict m)
    | .error e => .error e
  | .constRef name =>
    match envLookup env name with
    | some v => .ok v
    | none => .error (.unknownConst name)

/-- The list comprehension in the `ArrayNode` branch of `eval_value`
(line 283): evaluate the items in order, failing at the first error. -/
def evalNodeList (env : Env) : List Node → Except EvalErr (List Value)
  | [] => .ok []
  | nd :: rest =>
    match evalValue env nd with
    | .ok v =>
      match evalNodeList env rest with
      | .ok vs => .ok (v :: vs)
      | .error e => .error e
    | .error e => .error e

/-- The `MapNode` loop of `eval_value` (lines 285–288): starting from the
empty dict, assign each evaluated entry under its key in order. -/
def evalMapItems (env : Env) :
    List (String × Node) → List (String × Value) → Except EvalErr (List (String × Value))
  | [], acc => .ok acc
  | (k, nd) :: rest, acc =>
    match evalValue env nd with
    | .ok v => evalMapItems env rest (pyDictAssign acc k v)
    | .error e => .error e

end

/-- The declaration loop of `Evaluator.eval_program` (lines 272–276):
duplicate check first, then evaluation of the declared value, then
insertion. -/
def evalDecls : List ConstDecl → Env → Except EvalErr Env
  | [], env => .ok env
  | d :: rest, env =>
    if (envLookup env d.name).isSome then .error (.duplicateConst d.name)
    else
      match evalValue env d.value with
      | .ok v => evalDecls rest (pyDictAssign env d.name v)
      | .error e => .error e

/-- `Evaluator.eval_program` (lines 271–277). -/
def evalProgram (p : ProgramNode) : Except EvalErr Value :=
  match evalDecls p.consts [] with
  | .ok env => evalValue env p.root
  | .error e => .error e

/-! ## The TOML emitter -/

/-- Python `sep.join(parts)`. -/
def joinSep (sep : String) : List String → String
  | [] => ""
  | [x] => x
  | x :: y :: xs => x ++ sep ++ joinSep sep (y :: xs)

mutual

/-- `emit_value` (lines 303–310); the final `raise ValueError` for an
unsupported type is unreachable: `Value` is a closed sum.  On a dict the
source calls `emit_inline_table`, whose body is unfolded here (see
`emitValue_dict`). -/
def emitValue : Value → String
  | .int n => pyStrNat n
  | .list xs => "[" ++ joinSep ", " (emitValueList xs) ++ "]"
  | .dict l => "\x7b " ++ joinSep ", " (emitPairs l) ++ " \x7d"

/-- The generator expression in the `list` branch of `emit_value`
(line 307). -/
def emitValueList : List Value → List String
  | [] => []
  | v :: rest => emitValue v :: emitValueList rest

/-- The `parts` loop of `emit_inline_table` (lines 298–300). -/
def emitPairs : List (String × Value) → List String
  | [] => []
  | (k, v) :: rest => (k ++ " = " ++ emitValue v) :: emitPairs rest

end

/-- `emit_inline_table` (lines 297–301). -/
def emitInlineTable (l : List (String × Value)) : String :=
  "\x7b " ++ joinSep ", " (emitPairs l) ++ " \x7d"

theorem emitValue_dict (l : List (String × Value)) :
    emitValue (.dict l) = emitInlineTable l := rfl

/-- The `lines` loop of `emit_root` (lines 315–319): one `key = value`
line per entry; a dict value goes through `emit_inline_table`, any other
through `emit_value` (on a dict the two branches coincide, see
`emitValue_dict`). -/
def emitRootLines : List (String × Value) → List String
  | [] => []
  | (k, v) :: rest =>
    (match v with
     | .dict l2 => k ++ " = " ++ emitInlineTable l2
     | _ => k ++ " = " ++ emitValue v) :: emitRootLines rest

/-- `emit_root` (lines 312–322). -/
def emitRoot : Value → String
  | .dict l =>
    if emitRootLines l = [] then ""
    else joinSep "\n" (emitRootLines l) ++ "\n"
  | .int n => "value = " ++ emitValue (.int n) ++ "\n"
  | .list xs => "value = " ++ emitValue (.list xs) ++ "\n"

/-! ## The whole pipeline -/

inductive TransErr
  /-- `LexerError`: exit code 1. -/
  | lex (e : LexErr)
  /-- `ParseError`: exit code 1 (except the unreachable internal kinds). -/
  | parse (e : ParseErr)
  /-- `EvalError`: exit code 1. -/
  | eval (e : EvalErr)
  deriving DecidableEq, Repr

/-- The translation pipeline of `run_cli` (lines 341–348), from source text
to TOML text. -/
def translate (s : String) : Except TransErr String :=
  match tokenize s with
  | .error e => .error (.lex e)
  | .ok toks =>
    match parseTokens toks with
    | .error e => .error (.parse e)
    | .ok prog =>
      match evalProgram prog with
      | .error e => .error (.eval e)
      | .ok v => .ok (emitRoot v)

example : emitRoot (.dict []) = "" := rfl

example : emitValue (.dict []) = "\x7b  \x7d" := rfl

example :
    evalValue [] (.map [("a", Node.number 1), ("b", Node.number 2), ("a", Node.number 3)])
      = .ok (.dict [("a", Value.int 3), ("b", Value.int 2)]) := rfl

example : translate "\x7b a = 0x1; b = 0x2; \x7d" = .ok "a = 1\nb = 2\n" := rfl

example : translate "var x = 0x10 ?[x]" = .ok "value = 16\n" := rfl

/-! ## Hexadecimal values -/

/-- The base-16 interpretation of a digit string (most significant digit
first), with the digit values `int(·, 16)` assigns. -/
def hexValue (ds : List Char) : Nat :=
  Nat.ofDigits 16 ((ds.map fun c => (hexCharVal c).getD 0).reverse)

theorem isAsciiHexDigit_hexCharVal {c : Char} (h : isAsciiHexDigit c = true) :
    (hexCharVal c).isSome := by
  unfold isAsciiHexDigit at h
  simp only [Bool.or_eq_true, Bool.and_eq_true, decide_eq_true_eq] at h
  unfold hexCharVal
  split_ifs with h1 h2 h3 h4 <;> first | rfl | tauto

theorem isAsciiHexDigit_isHexDigitPy {c : Char} (h : isAsciiHexDigit c = true) :
    isHexDigitPy c = true := by
  unfold isAsciiHexDigit at h
  unfold isHexDigitPy pyIsDigit pyLowerInAbcdef
  simp only [Bool.or_eq_true, Bool.and_eq_true, decide_eq_true_eq] at h ⊢
  tauto

/-- On the ASCII plane the code's hex-digit test is exactly
`[0-9a-fA-F]`. -/
theorem isHexDigitPy_ascii {c : Char} (h : c.toNat < 128) :
    isHexDigitPy c = true ↔ isAsciiHexDigit c = true := by
  unfold isHexDigitPy pyIsDigit pyLowerInAbcdef isAsciiHexDigit
  have hr : ¬(0x660 ≤ c.toNat ∧ c.toNat ≤ 0x669) := by omega
  simp only [Bool.or_eq_true, Bool.and_eq_true, decide_eq_true_eq]
  tauto

theorem isHexDigitPy_ne_nl {d : Char} (h : isHexDigitPy d = true) : d ≠ '\n' := by
  intro hn
  rw [hn] at h
  exact absurd h (by decide)

theorem pyIntBase16Aux_spec :
    ∀ (ds : List Char) (acc : Nat), (∀ c ∈ ds, (hexCharVal c).isSome) →
      pyIntBase16Aux ds acc =
        some (acc * 16 ^ ds.length +
          Nat.ofDigits 16 ((ds.map fun c => (hexCharVal c).getD 0).reverse)) := by
  intro ds
  induction ds with
  | nil =>
    intro acc _
    simp [pyIntBase16Aux]
  | cons c ds ih =>
    intro acc h
    obtain ⟨d, hd⟩ := Option.isSome_iff_exists.mp (h c (List.mem_cons_self c ds))
    simp only [pyIntBase16Aux, hd]
    rw [ih (16 * acc + d) (fun e he => h e (List.mem_cons_of_mem c he))]
    congr 1
    simp only [List.map_cons, List.reverse_cons, List.length_cons, hd,
      Option.getD_some, Nat.ofDigits_append, Nat.ofDigits_singleton,
      List.length_reverse, List.length_map]
    ring

/-- `int(s, 16)` on a nonempty all-valid digit string is its base-16
interpretation. -/
theorem pyIntBase16_spec (ds : List Char) (hne : ds ≠ [])
    (h : ∀ c ∈ ds, (hexCharVal c).isSome) :
    pyIntBase16 ds = some (hexValue ds) := by
  unfold pyIntBase16 hexValue
  rw [if_neg hne, pyIntBase16Aux_spec ds 0 h]
  simp

/-- One non-EOF step of the tokenize loop. -/
theorem tokenizeLoop_step (fuel : Nat) (st : LexState) (acc : List Token)
    (tok : Token) (st2 : LexState) (h : nextToken st = .ok (tok, st2))
    (hk : ¬tok.kind = .eof) :
    tokenizeLoop (fuel + 1) st acc = tokenizeLoop fuel st2 (acc ++ [tok]) := by
  simp only [tokenizeLoop, h]
  rw [if_neg hk]

/-- The final EOF step of the tokenize loop. -/
theorem tokenizeLoop_eof (fuel : Nat) (st : LexState) (acc : List Token)
    (tok : Token) (st2 : LexState) (h : nextToken st = .ok (tok, st2))
    (hk : tok.kind = .eof) :
    tokenizeLoop (fuel + 1) st acc = .ok (acc ++ [tok]) := by
  simp only [tokenizeLoop, h]
  rw [if_pos hk]

/-- Lexing the two-character marker followed by a run of characters that
all pass the code's hex-digit test (and nothing else) yields exactly the
hex token with that digit string and the EOF token. -/
theorem tokenize_hex (c : Char) (ds : List Char)
    (hc : c = 'x' ∨ c = 'X') (hne : ds ≠ [])
    (hds : ∀ d ∈ ds, isHexDigitPy d = true) :
    tokenize (String.mk ('0' :: c :: ds)) =
      .ok [⟨.hex, String.mk ds, 1, 1⟩, ⟨.eof, "", 1, ds.length + 3⟩] := by
  have hcn : c ≠ '\n' := by rcases hc with h | h <;> (rw [h]; decide)
  have hpeek1 : (⟨'0' :: c :: ds, 0, 1, 1⟩ : LexState).peek 1 = some '0' := rfl
  have hpeek2 : (⟨'0' :: c :: ds, 0, 1, 1⟩ : LexState).peek 2 = some c := by
    simp [LexState.peek]
  have hskip : skipWs ⟨'0' :: c :: ds, 0, 1, 1⟩ = ⟨'0' :: c :: ds, 0, 1, 1⟩ := by
    apply skipWs_of_head
    intro ch hch
    rw [hpeek1] at hch
    cases hch
    decide
  have htake :
      ((⟨'0' :: c :: ds, 0, 1, 1⟩ : LexState).text.drop
        ((⟨'0' :: c :: ds, 0, 1, 1⟩ : LexState).i + 2)).takeWhile isHexDigitPy = ds := by
    show (('0' :: c :: ds).drop 2).takeWhile isHexDigitPy = ds
    exact takeWhile_all isHexDigitPy ds hds
  have hadv : lexAdvance ⟨'0' :: c :: ds, 0, 1, 1⟩ (2 + ds.length) =
      ⟨'0' :: c :: ds, 2 + ds.length, 1, 3 + ds.length⟩ := by
    have := lexAdvance_no_newline (2 + ds.length) ⟨'0' :: c :: ds, 0, 1, 1⟩ ?_
    · rw [this]
      show (⟨'0' :: c :: ds, 0 + (2 + ds.length), 1, 1 + (2 + ds.length)⟩ : LexState) = _
      rw [Nat.zero_add]
      have : 1 + (2 + ds.length) = 3 + ds.length := by omega
      rw [this]
    · intro j hj
      rcases j with _ | j
      · exact ⟨'0', rfl, by decide⟩
      rcases j with _ | j
      · refine ⟨c, ?_, hcn⟩
        show ('0' :: c :: ds)[0 + (0 + 1)]? = some c
        simp
      · have hjlt : j < ds.length := by
          simp only [LexState.i] at hj
          omega
        refine ⟨ds.get ⟨j, hjlt⟩, ?_, isHexDigitPy_ne_nl (hds _ (List.get_mem ds j hjlt))⟩
        show ('0' :: c :: ds)[0 + (j + 1 + 1)]? = some (ds.get ⟨j, hjlt⟩)
        rw [Nat.zero_add, List.getElem?_cons_succ, List.getElem?_cons_succ]
        rw [List.getElem?_eq_getElem hjlt]
        rfl
  have hhex : lexHex ⟨'0' :: c :: ds, 0, 1, 1⟩ =
      .ok (⟨.hex, String.mk ds, 1, 1⟩, ⟨'0' :: c :: ds, 2 + ds.length, 1, 3 + ds.length⟩) := by
    rw [lexHex_run ⟨'0' :: c :: ds, 0, 1, 1⟩ c hpeek1 hpeek2 hc, htake, if_neg hne, hadv]
  have hnext0 : nextToken ⟨'0' :: c :: ds, 0, 1, 1⟩ =
      .ok (⟨.hex, String.mk ds, 1, 1⟩, ⟨'0' :: c :: ds, 2 + ds.length, 1, 3 + ds.length⟩) := by
    unfold nextToken
    rw [hskip, nextTokenAt_hex ⟨'0' :: c :: ds, 0, 1, 1⟩ c hpeek1 hpeek2 hc, hhex]
  have hpeekNone :
      (⟨'0' :: c :: ds, 2 + ds.length, 1, 3 + ds.length⟩ : LexState).peek 1 = none := by
    show ('0' :: c :: ds)[2 + ds.length + 1 - 1]? = none
    apply List.getElem?_eq_none
    simp
    omega
  have hskip1 : skipWs ⟨'0' :: c :: ds, 2 + ds.length, 1, 3 + ds.length⟩ =
      ⟨'0' :: c :: ds, 2 + ds.length, 1, 3 + ds.length⟩ := by
    apply skipWs_of_head
    intro ch hch
    rw [hpeekNone] at hch
    cases hch
  have hnext1 : nextToken ⟨'0' :: c :: ds, 2 + ds.length, 1, 3 + ds.length⟩ =
      .ok (⟨.eof, "", 1, ds.length + 3⟩, ⟨'0' :: c :: ds, 2 + ds.length, 1, 3 + ds.length⟩) := by
    unfold nextToken
    rw [hskip1]
    unfold nextTokenAt
    rw [hpeekNone]
    have : 3 + ds.length = ds.length + 3 := by omega
    rw [this]
  show tokenizeLoop (ds.length + 1 + 1 + 1) ⟨'0' :: c :: ds, 0, 1, 1⟩ [] = _
  rw [tokenizeLoop_step (ds.length + 1 + 1) _ []
      ⟨.hex, String.mk ds, 1, 1⟩ ⟨'0' :: c :: ds, 2 + ds.length, 1, 3 + ds.length⟩
      hnext0 (by intro h; simp at h),
    tokenizeLoop_eof (ds.length + 1) _ _
      ⟨.eof, "", 1, ds.length + 3⟩ ⟨'0' :: c :: ds, 2 + ds.length, 1, 3 + ds.length⟩
      hnext1 rfl]
  simp

/-! ## Ordered-dict lemmas -/

theorem envLookup_pyDictAssign (d : List (String × Value)) (k k2 : String) (v : Value) :
    envLookup (pyDictAssign d k v) k2 = if k = k2 then some v else envLookup d k2 := by
  induction d with
  | nil =>
    show (if k = k2 then some v else envLookup [] k2) = _
    rfl
  | cons p d ih =>
    obtain ⟨k3, v3⟩ := p
    show envLookup (if k3 = k then (k3, v) :: d else (k3, v3) :: pyDictAssign d k v) k2 = _
    by_cases h3 : k3 = k
    · rw [if_pos h3]
      subst h3
      show (if k3 = k2 then some v else envLookup d k2) = _
      by_cases h2 : k3 = k2
      · rw [if_pos h2, if_pos h2]
      · rw [if_neg h2, if_neg h2]
        show envLookup d k2 = (if k3 = k2 then some v3 else envLookup d k2)
        rw [if_neg h2]
    · rw [if_neg h3]
      show (if k3 = k2 then some v3 else envLookup (pyDictAssign d k v) k2) = _
      by_cases h2 : k3 = k2
      · rw [if_pos h2]
        have hkk : ¬k = k2 := fun he => h3 (h2.trans he.symm)
        rw [if_neg hkk]
        show some v3 = (if k3 = k2 then some v3 else envLookup d k2)
        rw [if_pos h2]
      · rw [if_neg h2, ih]
        by_cases hk : k = k2
        · rw [if_pos hk, if_pos hk]
        · rw [if_neg hk, if_neg hk]
          show envLookup d k2 = (if k3 = k2 then some v3 else envLookup d k2)
          rw [if_neg h2]

theorem pyDictAssign_keys (d : List (String × Value)) (k : String) (v : Value) :
    (pyDictAssign d k v).map Prod.fst =
      if (envLookup d k).isSome then d.map Prod.fst else d.map Prod.fst ++ [k] := by
  induction d with
  | nil => rfl
  | cons p d ih =>
    obtain ⟨k3, v3⟩ := p
    show (if k3 = k then (k3, v) :: d else (k3, v3) :: pyDictAssign d k v).map Prod.fst = _
    by_cases h3 : k3 = k
    · rw [if_pos h3]
      have : envLookup ((k3, v3) :: d) k = some v3 := by
        show (if k3 = k then some v3 else envLookup d k) = _
        rw [if_pos h3]
      rw [this]
      rfl
    · rw [if_neg h3]
      have : envLookup ((k3, v3) :: d) k = envLookup d k := by
        show (if k3 = k then some v3 else envLookup d k) = _
        rw [if_neg h3]
      rw [this]
      show k3 :: (pyDictAssign d k v).map Prod.fst = _
      rw [ih]
      by_cases hs : (envLookup d k).isSome
      · rw [if_pos hs, if_pos hs]
        rfl
      · rw [if_neg hs, if_neg hs]
        rfl

theorem pyDictAssign_not_present (d : List (String × Value)) (k : String) (v : Value)
    (h : envLookup d k = none) : pyDictAssign d k v = d ++ [(k, v)] := by
  induction d with
  | nil => rfl
  | cons p d ih =>
    obtain ⟨k3, v3⟩ := p
    have h3 : ¬k3 = k := by
      intro he
      rw [show envLookup ((k3, v3) :: d) k = if k3 = k then some v3 else envLookup d k
        from rfl, if_pos he] at h
      cases h
    show (if k3 = k then (k3, v) :: d else (k3, v3) :: pyDictAssign d k v) = _
    rw [if_neg h3, ih]
    · rfl
    · rw [show envLookup ((k3, v3) :: d) k = if k3 = k then some v3 else envLookup d k
        from rfl, if_neg h3] at h
      exact h

theorem envLookup_append (a b : List (String × Value)) (k : String) :
    envLookup (a ++ b) k = (envLookup a k).or (envLookup b k) := by
  induction a with
  | nil => rfl
  | cons p a ih =>
    obtain ⟨k3, v3⟩ := p
    show (if k3 = k then some v3 else envLookup (a ++ b) k) = _
    by_cases h3 : k3 = k
    · rw [if_pos h3]
      show _ = ((if k3 = k then some v3 else envLookup a k).or _)
      rw [if_pos h3]
      rfl
    · rw [if_neg h3, ih]
      show _ = ((if k3 = k then some v3 else envLookup a k).or _)
      rw [if_neg h3]

/-- The repeated-assignment loop that builds a dict from a pair list,
starting from `acc` (the shape of both the `MapNode` evaluation loop and
the declaration loop). -/
def pyDictOfPairs : List (String × Value) → List (String × Value) → List (String × Value)
  | [], acc => acc
  | (k, v) :: ps, acc => pyDictOfPairs ps (pyDictAssign acc k v)

/-- The value attached to the LAST occurrence of `k` in the pair list. -/
def lastAssoc : List (String × Value) → String → Option Value
  | [], _ => none
  | (k2, v) :: rest, k =>
    match lastAssoc rest k with
    | some w => some w
    | none => if k2 = k then some v else none

/-- Looking a key up after repeated dict assignment gives the value of its
last occurrence. -/
theorem envLookup_pyDictOfPairs :
    ∀ (ps acc : List (String × Value)) (k : String),
      envLookup (pyDictOfPairs ps acc) k = (lastAssoc ps k).or (envLookup acc k) := by
  intro ps
  induction ps with
  | nil =>
    intro acc k
    rfl
  | cons p ps ih =>
    intro acc k
    obtain ⟨k2, v2⟩ := p
    show envLookup (pyDictOfPairs ps (pyDictAssign acc k2 v2)) k = _
    rw [ih, envLookup_pyDictAssign]
    show _ = (match lastAssoc ps k with
      | some w => some w
      | none => if k2 = k then some v2 else none).or (envLookup acc k)
    cases hby : lastAssoc ps k with
    | some w => rfl
    | none =>
      by_cases h2 : k2 = k
      · rw [if_pos h2, if_pos h2]
        try rfl
      · rw [if_neg h2, if_neg h2]
        try rfl

/-- Keep-first deduplication with an explicit seen accumulator. -/
def dedupFirstAux : List String → List String → List String
  | [], _ => []
  | k :: rest, seen =>
    if k ∈ seen then dedupFirstAux rest seen
    else k :: dedupFirstAux rest (seen ++ [k])

/-- The keys of a list with duplicates, each kept at its FIRST
occurrence. -/
def dedupFirst (l : List String) : List String :=
  dedupFirstAux l []

theorem envLookup_isSome_iff (d : List (String × Value)) (k : String) :
    (envLookup d k).isSome = true ↔ k ∈ d.map Prod.fst := by
  induction d with
  | nil => simp [envLookup]
  | cons p d ih =>
    obtain ⟨k3, v3⟩ := p
    show (if k3 = k then some v3 else envLookup d k).isSome = true ↔ _
    by_cases h3 : k3 = k
    · rw [if_pos h3]
      simp [h3]
    · rw [if_neg h3]
      simp only [List.map_cons, List.mem_cons]
      rw [ih]
      constructor
      · exact Or.inr
      · rintro (h | h)
        · exact absurd h.symm h3
        · exact h

/-- Repeated dict assignment puts each key at the position of its FIRST
occurrence: the final key order is the keep-first deduplication of the
assigned keys (after those already in the accumulator). -/
theorem keys_pyDictOfPairs :
    ∀ (ps acc : List (String × Value)),
      (pyDictOfPairs ps acc).map Prod.fst =
        acc.map Prod.fst ++ dedupFirstAux (ps.map Prod.fst) (acc.map Prod.fst) := by
  intro ps
  induction ps with
  | nil =>
    intro acc
    simp [pyDictOfPairs, dedupFirstAux]
  | cons p ps ih =>
    intro acc
    obtain ⟨k, v⟩ := p
    show (pyDictOfPairs ps (pyDictAssign acc k v)).map Prod.fst = _
    rw [ih]
    by_cases hs : (envLookup acc k).isSome
    · have hkeys : (pyDictAssign acc k v).map Prod.fst = acc.map Prod.fst := by
        rw [pyDictAssign_keys, if_pos hs]
      rw [hkeys]
      show _ = acc.map Prod.fst ++ dedupFirstAux (k :: ps.map Prod.fst) (acc.map Prod.fst)
      rw [show dedupFirstAux (k :: ps.map Prod.fst) (acc.map Prod.fst)
          = dedupFirstAux (ps.map Prod.fst) (acc.map Prod.fst) by
        simp only [dedupFirstAux]
        rw [if_pos ((envLookup_isSome_iff acc k).mp hs)]]
    · have hkeys : (pyDictAssign acc k v).map Prod.fst = acc.map Prod.fst ++ [k] := by
        rw [pyDictAssign_keys, if_neg hs]
      rw [hkeys]
      show _ = acc.map Prod.fst ++ dedupFirstAux (k :: ps.map Prod.fst) (acc.map Prod.fst)
      rw [show dedupFirstAux (k :: ps.map Prod.fst) (acc.map Prod.fst)
          = k :: dedupFirstAux (ps.map Prod.fst) (acc.map Prod.fst ++ [k]) by
        simp only [dedupFirstAux]
        rw [if_neg (fun hm => hs ((envLookup_isSome_iff acc k).mpr hm))]]
      simp

/-- With pairwise-distinct keys none of which is already present, repeated
dict assignment is plain appending: order and values are untouched. -/
theorem pyDictOfPairs_nodup :
    ∀ (ps acc : List (String × Value)), (ps.map Prod.fst).Nodup →
      (∀ k ∈ ps.map Prod.fst, envLookup acc k = none) →
      pyDictOfPairs ps acc = acc ++ ps := by
  intro ps
  induction ps with
  | nil =>
    intro acc _ _
    simp [pyDictOfPairs]
  | cons p ps ih =>
    intro acc hnd hnone
    obtain ⟨k, v⟩ := p
    show pyDictOfPairs ps (pyDictAssign acc k v) = _
    rw [pyDictAssign_not_present acc k v
      (hnone k (by simp))]
    rw [ih (acc ++ [(k, v)]) (by simpa using (List.nodup_cons.mp (by simpa using hnd)).2) ?_]
    · simp
    · intro k2 hk2
      rw [envLookup_append]
      have h1 : envLookup acc k2 = none := hnone k2 (by simp [hk2])
      have hkne : ¬k = k2 := by
        intro he
        subst he
        exact (List.nodup_cons.mp (by simpa using hnd)).1 hk2
      rw [h1]
      show Option.none.or (if k = k2 then some v else envLookup [] k2) = none
      rw [if_neg hkne]
      rfl

/-! ## Evaluator lemmas -/

/-- Evaluating the entries of a map node in order, keeping keys: the
unfolded view of the `MapNode` loop (see `evalMapItems_eq`). -/
def evalPairs (env : Env) : List (String × Node) → Except EvalErr (List (String × Value))
  | [] => .ok []
  | (k, nd) :: rest =>
    match evalValue env nd with
    | .ok v =>
      match evalPairs env rest with
      | .ok ps => .ok ((k, v) :: ps)
      | .error e => .error e
    | .error e => .error e

/-- The `MapNode` loop is: evaluate all entries in order, then assign them
one after the other into the dict accumulator. -/
theorem evalMapItems_eq (env : Env) :
    ∀ (items : List (String × Node)) (acc : List (String × Value)),
      evalMapItems env items acc =
        match evalPairs env items with
        | .ok ps => .ok (pyDictOfPairs ps acc)
        | .error e => .error e := by
  intro items
  induction items with
  | nil => intro acc; rfl
  | cons p items ih =>
    intro acc
    obtain ⟨k, nd⟩ := p
    simp only [evalMapItems, evalPairs]
    cases hv : evalValue env nd with
    | ok v =>
      dsimp only
      rw [ih (pyDictAssign acc k v)]
      cases hps : evalPairs env items with
      | ok ps => rfl
      | error e => rfl
    | error e => rfl

theorem evalPairs_keys (env : Env) :
    ∀ (items : List (String × Node)) (ps : List (String × Value)),
      evalPairs env items = .ok ps → ps.map Prod.fst = items.map Prod.fst := by
  intro items
  induction items with
  | nil =>
    intro ps h
    cases h
    rfl
  | cons p items ih =>
    intro ps h
    obtain ⟨k, nd⟩ := p
    simp only [evalPairs] at h
    cases hv : evalValue env nd with
    | ok v =>
      rw [hv] at h
      cases hps : evalPairs env items with
      | ok ps2 =>
        rw [hps] at h
        cases h
        simp [ih ps2 hps]
      | error e =>
        rw [hps] at h
        cases h
    | error e =>
      rw [hv] at h
      cases h

/-- `eval_value` on a map node, through the pair view. -/
theorem evalValue_map (env : Env) (items : List (String × Node)) :
    evalValue env (.map items) =
      match evalPairs env items with
      | .ok ps => .ok (.dict (pyDictOfPairs ps []))
      | .error e => .error e := by
  show (match evalMapItems env items [] with
    | Except.ok m => Except.ok (Value.dict m)
    | Except.error e => Except.error e) = _
  rw [evalMapItems_eq env items []]
  cases evalPairs env items <;> rfl

/-- The declaration loop processes a concatenation left to right. -/
theorem evalDecls_append :
    ∀ (ds more : List ConstDecl) (env : Env),
      evalDecls (ds ++ more) env =
        match evalDecls ds env with
        | .ok env2 => evalDecls more env2
        | .error e => .error e := by
  intro ds
  induction ds with
  | nil => intro more env; rfl
  | cons d ds ih =>
    intro more env
    simp only [List.cons_append, evalDecls]
    by_cases hd : (envLookup env d.name).isSome
    · rw [if_pos hd, if_pos hd]
    · rw [if_neg hd, if_neg hd]
      cases hv : evalValue env d.value with
      | ok v =>
        dsimp only
        rw [List.append_eq, ih more (pyDictAssign env d.name v)]
      | error e => rfl

/-! ## Emitter lemmas -/

theorem emitPairs_eq_map :
    ∀ l : List (String × Value),
      emitPairs l = l.map (fun p => p.1 ++ " = " ++ emitValue p.2) := by
  intro l
  induction l with
  | nil => rfl
  | cons p l ih =>
    obtain ⟨k, v⟩ := p
    show (k ++ " = " ++ emitValue v) :: emitPairs l = _
    rw [ih]
    rfl

theorem emitValueList_eq_map :
    ∀ xs : List Value, emitValueList xs = xs.map emitValue := by
  intro xs
  induction xs with
  | nil => rfl
  | cons v xs ih =>
    show emitValue v :: emitValueList xs = _
    rw [ih]
    rfl

/-- Each top-level line of a root map is `key = value`; the special dict
branch of `emit_root` coincides with `emit_value` there. -/
theorem emitRootLines_eq_map :
    ∀ l : List (String × Value),
      emitRootLines l = l.map (fun p => p.1 ++ " = " ++ emitValue p.2) := by
  intro l
  induction l with
  | nil => rfl
  | cons p l ih =>
    obtain ⟨k, v⟩ := p
    cases v with
    | int n =>
      show (k ++ " = " ++ emitValue (.int n)) :: emitRootLines l = _
      rw [ih]
      rfl
    | list xs =>
      show (k ++ " = " ++ emitValue (.list xs)) :: emitRootLines l = _
      rw [ih]
      rfl
    | dict l2 =>
      show (k ++ " = " ++ emitInlineTable l2) :: emitRootLines l = _
      rw [ih, ← emitValue_dict]
      rfl

mutual

/-- Keys of every (nested) map of the value are free of newline characters
(true of all evaluator-produced values: keys come from identifier
lexemes, which are alphanumeric). -/
def valueKeysOk : Value → Bool
  | .int _ => true
  | .list xs => valueListOk xs
  | .dict l => pairsOk l

def valueListOk : List Value → Bool
  | [] => true
  | v :: rest => valueKeysOk v && valueListOk rest

def pairsOk : List (String × Value) → Bool
  | [] => true
  | (k, v) :: rest => !decide ('\n' ∈ k.data) && valueKeysOk v && pairsOk rest

end

theorem pyStrNat_no_nl (n : Nat) : '\n' ∉ (pyStrNat n).data := by
  intro hm
  have := pyStrNat_chars n '\n' hm
  exact absurd this (by decide)

theorem joinSep_no_nl (sep : String) (hsep : '\n' ∉ sep.data) :
    ∀ ls : List String, (∀ s ∈ ls, '\n' ∉ s.data) → '\n' ∉ (joinSep sep ls).data := by
  intro ls
  induction ls with
  | nil =>
    intro _
    show '\n' ∉ ("" : String).data
    decide
  | cons x ls ih =>
    intro h
    cases ls with
    | nil => exact h x (by simp)
    | cons y ys =>
      show '\n' ∉ (x ++ sep ++ joinSep sep (y :: ys)).data
      rw [String.data_append, String.data_append]
      intro hm
      rcases List.mem_append.mp hm with hm1 | hm2
      · rcases List.mem_append.mp hm1 with ha | hb
        · exact h x (by simp) ha
        · exact hsep hb
      · exact ih (fun s hs => h s (List.mem_cons_of_mem x hs)) hm2

theorem getLast_ne_of_no_nl {l : List Char} (h : '\n' ∉ l) :
    l.getLast? ≠ some '\n' := by
  intro hl
  exact h (List.mem_of_mem_getLast? hl)

mutual

theorem emitValue_no_nl : ∀ v : Value, valueKeysOk v = true → '\n' ∉ (emitValue v).data
  | .int n, _ => pyStrNat_no_nl n
  | .list xs, h => by
    show '\n' ∉ ("[" ++ joinSep ", " (emitValueList xs) ++ "]").data
    rw [String.data_append, String.data_append]
    intro hm
    rcases List.mem_append.mp hm with hm1 | hm2
    · rcases List.mem_append.mp hm1 with ha | hb
      · exact absurd ha (by decide)
      · exact joinSep_no_nl ", " (by decide) (emitValueList xs)
          (emitValueList_no_nl xs h) hb
    · exact absurd hm2 (by decide)
  | .dict l, h => by
    show '\n' ∉ ("\x7b " ++ joinSep ", " (emitPairs l) ++ " \x7d").data
    rw [String.data_append, String.data_append]
    intro hm
    rcases List.mem_append.mp hm with hm1 | hm2
    · rcases List.mem_append.mp hm1 with ha | hb
      · exact absurd ha (by decide)
      · exact joinSep_no_nl ", " (by decide) (emitPairs l)
          (fun s hs => (emitPairs_no_nl l h s hs).2) hb
    · exact absurd hm2 (by decide)

theorem emitValueList_no_nl : ∀ xs : List Value, valueListOk xs = true →
    ∀ s ∈ emitValueList xs, '\n' ∉ s.data
  | [], _, _, hs => nomatch hs
  | v :: xs, h, s, hs => by
    have h2 : (valueKeysOk v && valueListOk xs) = true := h
    rw [Bool.and_eq_true] at h2
    rcases List.mem_cons.mp hs with rfl | hs2
    · exact emitValue_no_nl v h2.1
    · exact emitValueList_no_nl xs h2.2 s hs2

theorem emitPairs_no_nl : ∀ l : List (String × Value), pairsOk l = true →
    ∀ s ∈ emitPairs l, s.data ≠ [] ∧ '\n' ∉ s.data
  | [], _, _, hs => nomatch hs
  | (k, v) :: l, h, s, hs => by
    have h2 : (!decide ('\n' ∈ k.data) && valueKeysOk v && pairsOk l) = true := h
    rw [Bool.and_eq_true, Bool.and_eq_true] at h2
    have hknl : '\n' ∉ k.data := by
      have := h2.1.1
      simp only [Bool.not_eq_true', decide_eq_false_iff_not] at this
      exact this
    rcases List.mem_cons.mp hs with rfl | hs2
    · constructor
      · rw [String.data_append, String.data_append]
        intro hc
        rcases List.append_eq_nil.mp hc with ⟨hc1, _⟩
        rcases List.append_eq_nil.mp hc1 with ⟨_, he⟩
        exact absurd he (by decide)
      · rw [String.data_append, String.data_append]
        intro hm
        rcases List.mem_append.mp hm with hm1 | hm2
        · rcases List.mem_append.mp hm1 with ha | hb
          · exact hknl ha
          · exact absurd hb (by decide)
        · exact emitValue_no_nl v h2.1.2 hm2
    · exact emitPairs_no_nl l h2.2 s hs2

end

/-- A nonempty join of nonempty newline-free lines on `"\n"` does not end
in a newline (its last character is the last character of the last
line). -/
theorem joinSep_last :
    ∀ ls : List String, ls ≠ [] → (∀ s ∈ ls, s.data ≠ [] ∧ '\n' ∉ s.data) →
      (joinSep "\n" ls).data ≠ [] ∧ (joinSep "\n" ls).data.getLast? ≠ some '\n' := by
  intro ls
  induction ls with
  | nil =>
    intro hne _
    exact absurd rfl hne
  | cons x ls ih =>
    intro _ h
    cases ls with
    | nil =>
      exact ⟨(h x (by simp)).1, getLast_ne_of_no_nl (h x (by simp)).2⟩
    | cons y ys =>
      have hrec := ih (by simp) (fun s hs => h s (List.mem_cons_of_mem x hs))
      constructor
      · show (x ++ "\n" ++ joinSep "\n" (y :: ys)).data ≠ []
        rw [String.data_append, String.data_append]
        intro hc
        rcases List.append_eq_nil.mp hc with ⟨hc1, _⟩
        rcases List.append_eq_nil.mp hc1 with ⟨hx, _⟩
        exact (h x (by simp)).1 hx
      · show ((x ++ "\n" ++ joinSep "\n" (y :: ys)).data).getLast? ≠ some '\n'
        rw [String.data_append, String.data_append, List.getLast?_append]
        cases hz : (joinSep "\n" (y :: ys)).data.getLast? with
        | none =>
          exact absurd (List.getLast?_eq_none_iff.mp hz) hrec.1
        | some z =>
          show (some z).or _ ≠ some '\n'
          intro hc
          exact hrec.2 (hz.trans hc)

/-! ## Claim theorems -/

/-- Claim C1, counterexample: on the root map `{ a = 0x1; b = 0x2; a = 0x3; }`
the program emits `a = 3` FIRST (key `a` keeps the position of its first
occurrence), not `b = 2` first as the claim's example demands. -/
theorem claimC1_counterexample :
    translate "\x7b a = 0x1; b = 0x2; a = 0x3; \x7d" = .ok "a = 3\nb = 2\n" ∧
    "a = 3\nb = 2\n" ≠ "b = 2\na = 3\n" :=
  ⟨rfl, by decide⟩

/-- Claim C1 (amended): evaluating a map with duplicate keys yields a dict in
which every key holds the value of its LAST occurrence but occupies the
position of its FIRST occurrence (CPython dict-assignment semantics): the
key order is the keep-first deduplication of the written keys. -/
theorem claimC1 (env : Env) (items : List (String × Node)) (ps : List (String × Value))
    (h : evalPairs env items = .ok ps) :
    evalValue env (.map items) = .ok (.dict (pyDictOfPairs ps [])) ∧
    (∀ k, envLookup (pyDictOfPairs ps []) k = lastAssoc ps k) ∧
    (pyDictOfPairs ps []).map Prod.fst = dedupFirst (ps.map Prod.fst) := by
  refine ⟨?_, ?_, ?_⟩
  · rw [evalValue_map, h]
  · intro k
    rw [envLookup_pyDictOfPairs]
    show (lastAssoc ps k).or none = _
    cases lastAssoc ps k <;> rfl
  · rw [keys_pyDictOfPairs]
    rfl

theorem claimC1_witness :
    evalPairs [] [("a", Node.number 1), ("b", Node.number 2), ("a", Node.number 3)] =
      .ok [("a", Value.int 1), ("b", Value.int 2), ("a", Value.int 3)] ∧
    (evalValue [] (.map [("a", Node.number 1), ("b", Node.number 2), ("a", Node.number 3)]) =
      .ok (.dict (pyDictOfPairs [("a", Value.int 1), ("b", Value.int 2), ("a", Value.int 3)] [])) ∧
    (∀ k, envLookup (pyDictOfPairs [("a", Value.int 1), ("b", Value.int 2), ("a", Value.int 3)] []) k =
      lastAssoc [("a", Value.int 1), ("b", Value.int 2), ("a", Value.int 3)] k) ∧
    (pyDictOfPairs [("a", Value.int 1), ("b", Value.int 2), ("a", Value.int 3)] []).map Prod.fst =
      dedupFirst ([("a", Value.int 1), ("b", Value.int 2), ("a", Value.int 3)].map Prod.fst)) ∧
    pyDictOfPairs [("a", Value.int 1), ("b", Value.int 2), ("a", Value.int 3)] [] =
      [("a", Value.int 3), ("b", Value.int 2)] :=
  ⟨rfl, claimC1 [] [("a", Node.number 1), ("b", Node.number 2), ("a", Node.number 3)]
    [("a", Value.int 1), ("b", Value.int 2), ("a", Value.int 3)] rfl, rfl⟩

/-- Claim C2, counterexample: lexing `0xg` fails at column 3 (the position
after the `0x` marker, where `advance(2)` left the cursor), not at column 1
where the `0` stands. -/
theorem claimC2_counterexample :
    tokenize "0xg" = .error ⟨.malformedHex, 1, 3⟩ ∧ (3 : Nat) ≠ 1 :=
  ⟨rfl, by decide⟩

/-- Claim C2 (amended): a hex marker `0x`/`0X` followed by zero characters
passing the hex-digit test is a lexical error on the line of the `0` but at
column `col + 2` — the cursor position just after the marker, since the
error is raised after `advance(2)`. -/
theorem claimC2 (st : LexState) (c : Char)
    (h0 : st.peek 1 = some '0') (hx : st.peek 2 = some c) (hc : c = 'x' ∨ c = 'X')
    (hafter : ∀ d, st.peek 3 = some d → isHexDigitPy d = false) :
    lexHex st = .error ⟨.malformedHex, st.line, st.col + 2⟩ ∧
    nextTokenAt st = .error ⟨.malformedHex, st.line, st.col + 2⟩ := by
  have htake : (st.text.drop (st.i + 2)).takeWhile isHexDigitPy = [] := by
    cases hh : st.text.drop (st.i + 2) with
    | nil => rfl
    | cons d rest =>
      have hd : st.peek 3 = some d := by
        show st.text[st.i + 2]? = some d
        rw [← List.head?_drop, hh]
        rfl
      rw [List.takeWhile_cons, if_neg (by simp [hafter d hd])]
  have h1 := lexHex_run st c h0 hx hc
  rw [htake, if_pos rfl] at h1
  refine ⟨h1, ?_⟩
  rw [nextTokenAt_hex st c h0 hx hc]
  exact h1

theorem claimC2_witness :
    (⟨['0', 'x', 'g'], 0, 1, 1⟩ : LexState).peek 1 = some '0' ∧
    (⟨['0', 'x', 'g'], 0, 1, 1⟩ : LexState).peek 2 = some 'x' ∧
    (lexHex ⟨['0', 'x', 'g'], 0, 1, 1⟩ = .error ⟨.malformedHex, 1, 1 + 2⟩ ∧
      nextTokenAt ⟨['0', 'x', 'g'], 0, 1, 1⟩ = .error ⟨.malformedHex, 1, 1 + 2⟩) :=
  ⟨rfl, rfl,
    claimC2 ⟨['0', 'x', 'g'], 0, 1, 1⟩ 'x' rfl rfl (Or.inl rfl)
      (by
        intro d hd
        rw [show (⟨['0', 'x', 'g'], 0, 1, 1⟩ : LexState).peek 3 = some 'g' from rfl] at hd
        cases hd
        decide)⟩

/-- Claim C3: a valid hex literal `0x<digits>` (ASCII digits, any length,
either marker case) translates to `value = <decimal>` where the decimal
string is the exact base-16 value — `hexValue` is `Nat.ofDigits 16` of the
digit values — re-read in base 10 it gives the number back, with digit
characters only (arbitrary precision, no truncation, no hex form). -/
theorem claimC3 (c : Char) (ds : List Char)
    (hc : c = 'x' ∨ c = 'X') (hne : ds ≠ [])
    (hds : ∀ d ∈ ds, isAsciiHexDigit d = true) :
    translate (String.mk ('0' :: c :: ds)) =
      .ok ("value = " ++ pyStrNat (hexValue ds) ++ "\n") ∧
    decodeDecimal (pyStrNat (hexValue ds)) = hexValue ds ∧
    (∀ ch ∈ (pyStrNat (hexValue ds)).data, '0' ≤ ch ∧ ch ≤ '9') := by
  refine ⟨?_, decodeDecimal_pyStrNat _, pyStrNat_chars _⟩
  have hint : pyIntBase16 (String.mk ds).data = some (hexValue ds) :=
    pyIntBase16_spec ds hne (fun ch hch => isAsciiHexDigit_hexCharVal (hds ch hch))
  have hparse : parseTokens [⟨.hex, String.mk ds, 1, 1⟩, ⟨.eof, "", 1, ds.length + 3⟩] =
      .ok ⟨[], .number (hexValue ds)⟩ := by
    unfold parseTokens parseProgram
    simp only [List.length_cons, List.length_nil, parseConstDecls, parseValue, expect,
      reduceIte, reduceCtorEq, bind, Except.bind, hint]
  unfold translate
  rw [tokenize_hex c ds hc hne (fun d hd => isAsciiHexDigit_isHexDigitPy (hds d hd))]
  dsimp only
  rw [hparse]
  rfl

theorem claimC3_witness :
    (['f', 'F'] : List Char) ≠ [] ∧
    (translate (String.mk ('0' :: 'x' :: ['f', 'F'])) =
      .ok ("value = " ++ pyStrNat (hexValue ['f', 'F']) ++ "\n") ∧
    decodeDecimal (pyStrNat (hexValue ['f', 'F'])) = hexValue ['f', 'F'] ∧
    (∀ ch ∈ (pyStrNat (hexValue ['f', 'F'])).data, '0' ≤ ch ∧ ch ≤ '9')) ∧
    translate "0xfF" = .ok "value = 255\n" ∧
    translate "0x10000000000000000" = .ok "value = 18446744073709551616\n" :=
  ⟨by decide,
    claimC3 'x' ['f', 'F'] (Or.inl rfl) (by decide) (by decide),
    rfl, rfl⟩

/-- Claim C4, counterexample: the Arabic-Indic digit `٣` (U+0663), outside
`[0-9a-fA-F]`, is accepted into a hex literal's digit string, because
Python's `str.isdigit` is Unicode-aware: `0x٣` lexes to a hex token whose
digit string is `٣`. -/
theorem claimC4_counterexample :
    tokenize "0x٣" = .ok [⟨.hex, "٣", 1, 1⟩, ⟨.eof, "", 1, 4⟩] ∧
    isAsciiHexDigit '٣' = false ∧ ('٣' : Char) ∈ ("٣" : String).data :=
  ⟨rfl, by decide, by decide⟩

/-- Claim C4 (amended): the digit string of a lexed hex literal is exactly
the maximal run of characters passing the code's test
`ch.isdigit() or ch.lower() in "abcdef"` after the marker — on ASCII
characters that test is exactly `[0-9a-fA-F]`, but it also accepts
non-ASCII Unicode digits; the first character failing the test ends the
literal. -/
theorem claimC4 (st : LexState) (c : Char) (tok : Token) (st2 : LexState)
    (h0 : st.peek 1 = some '0') (hx : st.peek 2 = some c) (hc : c = 'x' ∨ c = 'X')
    (htok : lexHex st = .ok (tok, st2)) :
    tok.value.data = (st.text.drop (st.i + 2)).takeWhile isHexDigitPy ∧
    (∀ d ∈ tok.value.data, isHexDigitPy d = true) ∧
    (∀ e : Char, e.toNat < 128 → (isHexDigitPy e = true ↔ isAsciiHexDigit e = true)) := by
  have h1 := lexHex_run st c h0 hx hc
  rw [htok] at h1
  by_cases hnil : (st.text.drop (st.i + 2)).takeWhile isHexDigitPy = []
  · rw [if_pos hnil] at h1
    cases h1
  · rw [if_neg hnil] at h1
    cases h1
    refine ⟨rfl, ?_, fun e he => isHexDigitPy_ascii he⟩
    intro d hd
    exact List.mem_takeWhile_imp hd

theorem claimC4_witness :
    (⟨['0', 'x', 'a', 'Z'], 0, 1, 1⟩ : LexState).peek 1 = some '0' ∧
    lexHex ⟨['0', 'x', 'a', 'Z'], 0, 1, 1⟩ =
      .ok (⟨.hex, "a", 1, 1⟩, ⟨['0', 'x', 'a', 'Z'], 3, 1, 4⟩) ∧
    ((⟨.hex, "a", 1, 1⟩ : Token).value.data =
      ((⟨['0', 'x', 'a', 'Z'], 0, 1, 1⟩ : LexState).text.drop
        ((⟨['0', 'x', 'a', 'Z'], 0, 1, 1⟩ : LexState).i + 2)).takeWhile isHexDigitPy ∧
    (∀ d ∈ (⟨.hex, "a", 1, 1⟩ : Token).value.data, isHexDigitPy d = true) ∧
    (∀ e : Char, e.toNat < 128 → (isHexDigitPy e = true ↔ isAsciiHexDigit e = true))) :=
  ⟨rfl, rfl,
    claimC4 ⟨['0', 'x', 'a', 'Z'], 0, 1, 1⟩ 'x' ⟨.hex, "a", 1, 1⟩
      ⟨['0', 'x', 'a', 'Z'], 3, 1, 4⟩ rfl rfl (Or.inl rfl) rfl⟩

/-- Claim C5: a root map with pairwise-distinct keys evaluates to its pairs
unchanged and is emitted as one `key = value` line per key, in the original
source order, joined by newlines with one trailing newline. -/
theorem claimC5 (env : Env) (items : List (String × Node)) (ps : List (String × Value))
    (h : evalPairs env items = .ok ps) (hnd : (items.map Prod.fst).Nodup) :
    evalValue env (.map items) = .ok (.dict ps) ∧
    (ps ≠ [] → emitRoot (.dict ps) =
      joinSep "\n" (ps.map (fun p => p.1 ++ " = " ++ emitValue p.2)) ++ "\n") ∧
    (ps = [] → emitRoot (.dict ps) = "") := by
  have hkeys : ps.map Prod.fst = items.map Prod.fst := evalPairs_keys env items ps h
  have hnodup : (ps.map Prod.fst).Nodup := by rw [hkeys]; exact hnd
  have hfold : pyDictOfPairs ps [] = ps := by
    rw [pyDictOfPairs_nodup ps [] hnodup (fun k _ => rfl)]
    rfl
  refine ⟨?_, ?_, ?_⟩
  · rw [evalValue_map, h]
    dsimp only
    rw [hfold]
  · intro hne
    show (if emitRootLines ps = [] then "" else joinSep "\n" (emitRootLines ps) ++ "\n") = _
    rw [emitRootLines_eq_map,
      if_neg (fun hc => hne (List.map_eq_nil_iff.mp hc))]
  · intro he
    subst he
    rfl

theorem claimC5_witness :
    evalPairs [] [("a", Node.number 1), ("b", Node.number 2)] =
      .ok [("a", Value.int 1), ("b", Value.int 2)] ∧
    ([("a", Node.number 1), ("b", Node.number 2)].map Prod.fst).Nodup ∧
    (evalValue [] (.map [("a", Node.number 1), ("b", Node.number 2)]) =
      .ok (.dict [("a", Value.int 1), ("b", Value.int 2)]) ∧
    ([("a", Value.int 1), ("b", Value.int 2)] ≠ ([] : List (String × Value)) →
      emitRoot (.dict [("a", Value.int 1), ("b", Value.int 2)]) =
        joinSep "\n" ([("a", Value.int 1), ("b", Value.int 2)].map
          (fun p => p.1 ++ " = " ++ emitValue p.2)) ++ "\n") ∧
    ([("a", Value.int 1), ("b", Value.int 2)] = ([] : List (String × Value)) →
      emitRoot (.dict [("a", Value.int 1), ("b", Value.int 2)]) = "")) ∧
    translate "\x7b a = 0x1; b = 0x2; \x7d" = .ok "a = 1\nb = 2\n" :=
  ⟨rfl, by decide,
    claimC5 [] [("a", Node.number 1), ("b", Node.number 2)]
      [("a", Value.int 1), ("b", Value.int 2)] rfl (by decide), rfl⟩

/-- Claim C6, counterexample: the spec's own example text
`var a = ?[b]; var b = 0x1; ?[a]` does not fail with an unknown-constant
evaluation error — top-level declarations take no semicolon in this
grammar, so it dies in the parser at the first `;` (1:13) expecting a
value. -/
theorem claimC6_counterexample :
    translate "var a = ?[b]; var b = 0x1; ?[a]" =
      .error (.parse ⟨.expectedValue, 1, 13, .semi⟩) ∧
    TransErr.parse ⟨.expectedValue, 1, 13, .semi⟩ ≠
      TransErr.eval (.unknownConst "b") :=
  ⟨rfl, by decide⟩

/-- Claim C6 (amended): a constant reference in a declaration's value is
resolved against the table of strictly earlier declarations only; when the
referenced name is not among them (forward or self reference) evaluation
fails with exactly the unknown-constant error naming it — but written with
semicolons, as in the spec's example, the program is instead rejected by
the parser (see the counterexample). -/
theorem claimC6 (ds rest : List ConstDecl) (env : Env) (name n : String) (root : Node)
    (h : evalDecls ds [] = .ok env)
    (hname : envLookup env name = none)
    (hn : envLookup env n = none) :
    evalProgram ⟨ds ++ ⟨name, .constRef n⟩ :: rest, root⟩ = .error (.unknownConst n) := by
  have hv : evalValue env (.constRef n) = .error (.unknownConst n) := by
    show (match envLookup env n with
      | some v => Except.ok v
      | none => Except.error (EvalErr.unknownConst n)) = _
    rw [hn]
  have hstep : evalDecls (⟨name, Node.constRef n⟩ :: rest) env =
      .error (.unknownConst n) := by
    simp [evalDecls, hname, hv]
  have hcomp : evalDecls (ds ++ ⟨name, Node.constRef n⟩ :: rest) [] =
      .error (.unknownConst n) := by
    rw [evalDecls_append, h]
    exact hstep
  unfold evalProgram
  rw [hcomp]

theorem claimC6_witness :
    evalDecls [] [] = .ok [] ∧
    envLookup [] "a" = none ∧
    envLookup [] "b" = none ∧
    evalProgram ⟨[] ++ ⟨"a", Node.constRef "b"⟩ :: [⟨"b", Node.number 1⟩],
      Node.constRef "a"⟩ = .error (.unknownConst "b") ∧
    translate "var a = ?[b] var b = 0x1 ?[a]" = .error (.eval (.unknownConst "b")) :=
  ⟨rfl, rfl, rfl,
    claimC6 [] [⟨"b", Node.number 1⟩] [] "a" "b" (Node.constRef "a") rfl rfl rfl, rfl⟩

/-- Claim C7: redeclaring a constant fails with the duplicate-constant
error naming it, and the check fires at declaration time, before the second
declaration's value expression is evaluated — the value here is arbitrary
and may itself be one that would fail. -/
theorem claimC7 (ds rest : List ConstDecl) (env : Env) (name : String) (v root : Node)
    (h : evalDecls ds [] = .ok env)
    (hdup : (envLookup env name).isSome = true) :
    evalProgram ⟨ds ++ ⟨name, v⟩ :: rest, root⟩ = .error (.duplicateConst name) := by
  have hstep : evalDecls (⟨name, v⟩ :: rest) env = .error (.duplicateConst name) := by
    simp [evalDecls, hdup]
  have hcomp : evalDecls (ds ++ ⟨name, v⟩ :: rest) [] =
      .error (.duplicateConst name) := by
    rw [evalDecls_append, h]
    exact hstep
  unfold evalProgram
  rw [hcomp]

theorem claimC7_witness :
    evalDecls [⟨"x", Node.number 1⟩] [] = .ok [("x", Value.int 1)] ∧
    (envLookup [("x", Value.int 1)] "x").isSome = true ∧
    evalProgram ⟨[⟨"x", Node.number 1⟩] ++ ⟨"x", Node.constRef "zz"⟩ :: [],
      Node.number 5⟩ = .error (.duplicateConst "x") ∧
    translate "var x = 0x1 var x = ?[zz] 0x5" = .error (.eval (.duplicateConst "x")) :=
  ⟨rfl, rfl,
    claimC7 [⟨"x", Node.number 1⟩] [] [("x", Value.int 1)] "x"
      (Node.constRef "zz") (Node.number 5) rfl rfl, rfl⟩

/-- The text ends with exactly one trailing newline: nonempty, last
character a newline, and the character before it (if any) not a newline. -/
def endsWithOneNl (s : String) : Prop :=
  s.data ≠ [] ∧ s.data.getLast? = some '\n' ∧ s.data.dropLast.getLast? ≠ some '\n'

theorem endsWithOneNl_concat (a : String)
    (hlast : a.data.getLast? ≠ some '\n') : endsWithOneNl (a ++ "\n") := by
  unfold endsWithOneNl
  rw [String.data_append, show ("\n" : String).data = ['\n'] from rfl]
  refine ⟨by simp, List.getLast?_concat a.data, ?_⟩
  rw [List.dropLast_concat]
  exact hlast

/-- Claim C8: every successfully emitted text ends with exactly one
trailing newline, except the empty root map which emits the empty string;
a non-map root is the single line `value = <rendering>` plus newline.
(The hypothesis — map keys contain no newline — holds for every
evaluator-produced value, whose keys are identifier lexemes.) -/
theorem claimC8 (v : Value) (hkeys : valueKeysOk v = true) :
    emitRoot (.dict []) = "" ∧
    (v ≠ .dict [] → endsWithOneNl (emitRoot v)) ∧
    (∀ n, v = .int n → emitRoot v = "value = " ++ emitValue v ++ "\n") ∧
    (∀ xs, v = .list xs → emitRoot v = "value = " ++ emitValue v ++ "\n") := by
  refine ⟨rfl, ?_, ?_, ?_⟩
  · intro hne
    cases v with
    | int n =>
      show endsWithOneNl ("value = " ++ emitValue (.int n) ++ "\n")
      apply endsWithOneNl_concat
      apply getLast_ne_of_no_nl
      rw [String.data_append]
      intro hm
      rcases List.mem_append.mp hm with hm1 | hm2
      · exact absurd hm1 (by decide)
      · exact emitValue_no_nl (.int n) hkeys hm2
    | list xs =>
      show endsWithOneNl ("value = " ++ emitValue (.list xs) ++ "\n")
      apply endsWithOneNl_concat
      apply getLast_ne_of_no_nl
      rw [String.data_append]
      intro hm
      rcases List.mem_append.mp hm with hm1 | hm2
      · exact absurd hm1 (by decide)
      · exact emitValue_no_nl (.list xs) hkeys hm2
    | dict l =>
      have hl : l ≠ [] := fun he => hne (by rw [he])
      have hlines : emitRootLines l ≠ [] := by
        rw [emitRootLines_eq_map]
        intro hc
        exact hl (List.map_eq_nil_iff.mp hc)
      have hprops : ∀ s ∈ emitRootLines l, s.data ≠ [] ∧ '\n' ∉ s.data := by
        rw [emitRootLines_eq_map, ← emitPairs_eq_map]
        exact emitPairs_no_nl l hkeys
      have hj := joinSep_last (emitRootLines l) hlines hprops
      show endsWithOneNl
        (if emitRootLines l = [] then "" else joinSep "\n" (emitRootLines l) ++ "\n")
      rw [if_neg hlines]
      exact endsWithOneNl_concat _ hj.2
  · intro n he
    subst he
    rfl
  · intro xs he
    subst he
    rfl

theorem claimC8_witness :
    valueKeysOk (Value.dict [("a", Value.int 1), ("b", Value.int 2)]) = true ∧
    (emitRoot (.dict []) = "" ∧
    (Value.dict [("a", Value.int 1), ("b", Value.int 2)] ≠ .dict [] →
      endsWithOneNl (emitRoot (Value.dict [("a", Value.int 1), ("b", Value.int 2)]))) ∧
    (∀ n, Value.dict [("a", Value.int 1), ("b", Value.int 2)] = .int n →
      emitRoot (Value.dict [("a", Value.int 1), ("b", Value.int 2)]) =
        "value = " ++ emitValue (Value.dict [("a", Value.int 1), ("b", Value.int 2)]) ++ "\n") ∧
    (∀ xs, Value.dict [("a", Value.int 1), ("b", Value.int 2)] = .list xs →
      emitRoot (Value.dict [("a", Value.int 1), ("b", Value.int 2)]) =
        "value = " ++ emitValue (Value.dict [("a", Value.int 1), ("b", Value.int 2)]) ++ "\n")) :=
  ⟨rfl, claimC8 (Value.dict [("a", Value.int 1), ("b", Value.int 2)]) rfl⟩

/-- Claim C9: a nested map is rendered as `\x7b `, the entries
`key = value` joined by `, `, then ` \x7d`; with zero entries this is the
four-character string with a double space between the braces. -/
theorem claimC9 :
    (∀ l : List (String × Value), emitValue (.dict l) =
      "\x7b " ++ joinSep ", " (l.map (fun p => p.1 ++ " = " ++ emitValue p.2)) ++ " \x7d") ∧
    emitValue (.dict []) = "\x7b  \x7d" ∧
    (emitValue (.dict [])).data = ['\x7b', ' ', ' ', '\x7d'] ∧
    (emitValue (.dict [])).length = 4 ∧
    emitValue (.dict [("a", Value.int 1), ("b", Value.int 2)]) = "\x7b a = 1, b = 2 \x7d" := by
  refine ⟨?_, rfl, rfl, rfl, rfl⟩
  intro l
  show "\x7b " ++ joinSep ", " (emitPairs l) ++ " \x7d" = _
  rw [emitPairs_eq_map]

/-- Claim C10: the exact words `array` and `var` always lex as keyword
tokens, never identifiers, and the parser demands an identifier token for a
constant name, a map key and a constant-reference name — so each such use
is a parse error (shown on all three positions). -/
theorem claimC10 (tok : Token) (rest : List Token)
    (h : tok.kind = .kwArray ∨ tok.kind = .kwVar) :
    expect .ident (tok :: rest) =
      .error ⟨.expectedKind .ident, tok.line, tok.col, tok.kind⟩ ∧
    (∀ (st : LexState) (tok2 : Token) (st2 : LexState),
      lexIdentOrKw st = .ok (tok2, st2) →
        (tok2.value = "array" → tok2.kind = .kwArray) ∧
        (tok2.value = "var" → tok2.kind = .kwVar) ∧
        (tok2.kind = .ident → tok2.value ≠ "array" ∧ tok2.value ≠ "var")) ∧
    translate "\x7b var = 0x1; \x7d" =
      .error (.parse ⟨.expectedKind .ident, 1, 3, .kwVar⟩) ∧
    translate "?[array]" = .error (.parse ⟨.expectedKind .ident, 1, 3, .kwArray⟩) ∧
    translate "var array = 0x1 0x2" =
      .error (.parse ⟨.expectedKind .ident, 1, 5, .kwArray⟩) := by
  refine ⟨?_, ?_, rfl, rfl, rfl⟩
  · simp only [expect]
    rw [if_neg (by rcases h with h | h <;> simp [h])]
  · intro st tok2 st2 hok
    unfold lexIdentOrKw at hok
    cases hpk : st.peek 1 with
    | none =>
      rw [hpk] at hok
      cases hok
    | some ch =>
      rw [hpk] at hok
      dsimp only at hok
      by_cases ha : pyIsAlpha ch = true
      · rw [if_pos ha] at hok
        cases hscan : charLoop pyIsAlnum (st.text.length - st.i + 1) st [] with
        | mk s st3 =>
          rw [hscan] at hok
          by_cases h1 : String.mk s = "array"
          · rw [if_pos h1] at hok
            cases hok
            exact ⟨fun _ => rfl,
              fun hv => absurd (h1.symm.trans hv) (by decide),
              fun hk => absurd hk (by simp)⟩
          · rw [if_neg h1] at hok
            by_cases h2 : String.mk s = "var"
            · rw [if_pos h2] at hok
              cases hok
              exact ⟨fun hv => absurd (h2.symm.trans hv) (by decide),
                fun _ => rfl,
                fun hk => absurd hk (by simp)⟩
            · rw [if_neg h2] at hok
              cases hok
              exact ⟨fun hv => absurd hv h1, fun hv => absurd hv h2,
                fun _ => ⟨h1, h2⟩⟩
      · rw [if_neg ha] at hok
        cases hok

theorem claimC10_witness :
    ((⟨.kwVar, "var", 7, 9⟩ : Token).kind = .kwArray ∨
      (⟨.kwVar, "var", 7, 9⟩ : Token).kind = .kwVar) ∧
    (expect .ident [⟨.kwVar, "var", 7, 9⟩] =
      .error ⟨.expectedKind .ident, 7, 9, .kwVar⟩ ∧
    (∀ (st : LexState) (tok2 : Token) (st2 : LexState),
      lexIdentOrKw st = .ok (tok2, st2) →
        (tok2.value = "array" → tok2.kind = .kwArray) ∧
        (tok2.value = "var" → tok2.kind = .kwVar) ∧
        (tok2.kind = .ident → tok2.value ≠ "array" ∧ tok2.value ≠ "var")) ∧
    translate "\x7b var = 0x1; \x7d" =
      .error (.parse ⟨.expectedKind .ident, 1, 3, .kwVar⟩) ∧
    translate "?[array]" = .error (.parse ⟨.expectedKind .ident, 1, 3, .kwArray⟩) ∧
    translate "var array = 0x1 0x2" =
      .error (.parse ⟨.expectedKind .ident, 1, 5, .kwArray⟩)) :=
  ⟨Or.inr rfl, claimC10 ⟨.kwVar, "var", 7, 9⟩ [] (Or.inr rfl)⟩

end Dzcongig
